import Mathlib

/-!
# Verification of the `graphql-fields-list` selection-tree projection engine

This file gives a shallow embedding, in Lean 4, of the TypeScript source of
the `graphql-fields-list` package (the module providing `fieldsMap`,
`fieldsList` and `fieldsProjection`), and proves or refutes the frozen
specification claims about it.

Modelling conventions:

* JavaScript objects with string keys are modelled as insertion-ordered
  association lists `List (String × α)` (`Object.keys` order for string keys
  is insertion order, which the association list preserves).
* `undefined` / absent values are `Option.none`; JavaScript truthiness of the
  values that actually flow through this code is modelled case by case
  (`false` and `undefined` and `""` are falsy; objects, including empty ones
  and empty arrays, are truthy).
* The module is an ES module, hence executes in strict mode; an assignment to
  a property of the primitive `true` (which `skipTree` performs for some skip
  pattern lists) throws a `TypeError`.  Fallible steps are therefore modelled
  with `Except Unit`, `.error ()` standing for a thrown exception.
* The recursion of `traverse` through fragment expansion is not structurally
  terminating (the engine diverges on cyclic fragment tables, by stack
  overflow).  Recursive descents therefore consume explicit `fuel`, standing
  for the JavaScript call stack budget; exhausting it yields `.error ()`,
  the model of a stack overflow.  All entry points take the fuel as an
  explicit first argument.
* The wildcard lookup of `verifySkip` builds `new RegExp(pattern.replace(/\*‎/g, '.*'))`
  and runs an unanchored `test`.  We model this for the wildcard-glob
  fragment: patterns whose characters are word characters, dots and `*`.
  On that fragment the unanchored regex test is exactly "the literal chunks
  between `*`s occur left to right as substrings", which `chunksMatch`
  implements.  (A pattern containing other regex metacharacters can make
  `new RegExp` itself throw; theorems about skip behaviour therefore carry a
  `safePattern` hypothesis where real-code faithfulness needs it.)
-/

namespace GFL

/-- Lookup in an insertion-ordered association list (JS `obj[key]`). -/
def lookupKey {α : Type} : List (String × α) → String → Option α
  | [], _ => none
  | (k, v) :: rest, key => if k == key then some v else lookupKey rest key

/-- Assignment `obj[key] = val` on an insertion-ordered association list:
an existing key keeps its position, a new key is appended. -/
def setKey {α : Type} : List (String × α) → String → α → List (String × α)
  | [], key, val => [(key, val)]
  | (k, v) :: rest, key, val =>
    if k == key then (k, val) :: rest else (k, v) :: setKey rest key val

/-- JS `String.prototype.split` with a single-character separator, on the
character list: splitting the empty string yields `[""]`, a separator at
either end yields an empty piece there. -/
def splitOnChar (c : Char) : List Char → List (List Char)
  | [] => [[]]
  | d :: rest =>
    if d == c then [] :: splitOnChar c rest
    else
      match splitOnChar c rest with
      | [] => [[d]]
      | g :: gs => (d :: g) :: gs

/-- JS `s.split(c)` for a one-character separator, as strings. -/
def jsSplit (s : String) (c : Char) : List String :=
  (splitOnChar c s.data).map (fun l => String.mk l)

/-- JS `~s.indexOf(c)`: whether the string contains the character. -/
def strHasChar (s : String) (c : Char) : Bool :=
  s.data.any (fun d => d == c)

/-- Argument value node of a directive argument (`arg.value`): a boolean
literal, a variable reference, or any other kind of value node. -/
inductive JsValue where
  | booleanValue (b : Bool) : JsValue
  | variableRef (name : String) : JsValue
  | otherValue : JsValue
deriving Repr

/-- `ArgumentNode`: only the `value` field is consulted by the code. -/
structure ArgumentNode where
  value : JsValue
deriving Repr

/-- `DirectiveNode`: `name.value` and the (possibly empty) argument list. -/
structure DirectiveNode where
  name : String
  arguments : List ArgumentNode
deriving Repr

/-- `SelectionNode`: a named field (optional selection set), an inline
fragment, or a fragment spread.  A field whose `selectionSet` is absent is
`none`; note an empty selection set `some []` is a present (truthy) object. -/
inductive SelectionNode where
  | field (name : String) (directives : List DirectiveNode)
      (selectionSet : Option (List SelectionNode)) : SelectionNode
  | inlineFragment (directives : List DirectiveNode)
      (selectionSet : List SelectionNode) : SelectionNode
  | fragmentSpread (name : String) (directives : List DirectiveNode) : SelectionNode
deriving Repr

/-- `FragmentDefinitionNode`: its selection set's selections. -/
structure FragmentDefinitionNode where
  selections : List SelectionNode
deriving Repr

/-- `GraphQLResolveInfo` as consumed by the module.  `fieldNodes` may be
absent (`none`) while the legacy `fieldASTs` carries the selection nodes.
Variable values are modelled as boolean bindings (the only kind the
directive evaluator is sensitive to; an unbound variable reads as the falsy
`undefined`, i.e. `none`). -/
structure GraphQLResolveInfo where
  fieldName : String
  fieldNodes : Option (List SelectionNode)
  fieldASTs : Option (List SelectionNode)
  fragments : List (String × FragmentDefinitionNode)
  variableValues : List (String × Bool)
deriving Repr

/-- `FieldsListOptions`, every field optional. -/
structure FieldsListOptions where
  path : Option String := none
  transform : Option (List (String × String)) := none
  withDirectives : Option Bool := none
  keepParentField : Option Bool := none
  skip : Option (List String) := none
deriving Repr

/-- `node.directives` (an absent directive list behaves as the empty one). -/
def SelectionNode.directives : SelectionNode → List DirectiveNode
  | .field _ ds _ => ds
  | .inlineFragment ds _ => ds
  | .fragmentSpread _ ds => ds

/-- `node.name.value` where present (`undefined` for inline fragments). -/
def SelectionNode.nameVal : SelectionNode → Option String
  | .field n _ _ => some n
  | .inlineFragment _ _ => none
  | .fragmentSpread n _ => some n

/-- `node.selectionSet` as an optional object. -/
def SelectionNode.selectionSet : SelectionNode → Option (List SelectionNode)
  | .field _ _ ss => ss
  | .inlineFragment _ ss => some ss
  | .fragmentSpread _ _ => none

/-- `getNodes`: `selection?.selectionSet?.selections || []`. -/
def SelectionNode.getNodes (n : SelectionNode) : List SelectionNode :=
  match n.selectionSet with
  | some xs => xs
  | none => []

/-- `checkValue`: whether directive `name` with effective value `value`
lets the field through. -/
def checkValue (name : String) (value : Bool) : Bool :=
  if name == "skip" then !value
  else if name == "include" then value
  else true

/-- `verifyDirectiveArg`: a boolean literal or a variable reference is
evaluated with `checkValue` (an unbound variable reads as falsy), any other
argument kind imposes no constraint. -/
def verifyDirectiveArg (name : String) (arg : ArgumentNode)
    (vars : List (String × Bool)) : Bool :=
  match arg.value with
  | .booleanValue b => checkValue name b
  | .variableRef v => checkValue name ((lookupKey vars v).getD false)
  | .otherValue => true

/-- `verifyDirective`: a directive named neither `include` nor `skip`
always passes; otherwise every argument must pass. -/
def verifyDirective (d : DirectiveNode) (vars : List (String × Bool)) : Bool :=
  if d.name != "include" && d.name != "skip" then true
  else d.arguments.all (fun a => verifyDirectiveArg d.name a vars)

/-- `verifyDirectives`: every directive of the list must pass (an absent or
empty list passes). -/
def verifyDirectives (ds : List DirectiveNode) (vars : List (String × Bool)) : Bool :=
  ds.all (fun d => verifyDirective d vars)

/-- `SkipValue = boolean | SkipTree`, the skip-rule tree. -/
inductive SkipValue where
  | tru : SkipValue
  | fls : SkipValue
  | tree (entries : List (String × SkipValue)) : SkipValue
deriving Repr

/-- JS truthiness of a `SkipValue` (`false` is falsy, `true` and every
object are truthy). -/
def SkipValue.truthy : SkipValue → Bool
  | .fls => false
  | _ => true

/-- The creation path of `skipTree`'s inner loop: the value assigned when
the walk finds no truthy entry for the current segment, given the segments
that follow it.  Exhausted segments, or a next segment that is a bare `*`
(which is consumed), assign the primitive `true`; otherwise a fresh `{}`
is assigned and the walk continues inside it, where every lookup misses
again.  Continuing past an assigned `true` is the strict-mode `TypeError`
of `true[prop] = …`, modelled as `.error ()`. -/
def skipCreate : List String → Except Unit SkipValue
  | [] => .ok .tru
  | "*" :: rest2 =>
    match rest2 with
    | [] => .ok .tru
    | _ :: _ => .error ()
  | seg :: rest2 =>
    match skipCreate rest2 with
    | .error e => .error e
    | .ok child => .ok (.tree (setKey [] seg child))

/-- One pattern insertion of `skipTree` (the inner `for` loop over the
dot-separated segments `props`): walk down existing truthy entries,
switch to the creation path (`skipCreate`) at the first miss.  Reaching a
node already set to the primitive `true` with segments left is the
strict-mode `TypeError` of `true[prop] = …` (`.error ()`). -/
def skipInsert : SkipValue → List String → Except Unit SkipValue
  | v, [] => .ok v
  | .tree es, prop :: rest =>
    match lookupKey es prop with
    | some child =>
      if child.truthy then
        match skipInsert child rest with
        | .error e => .error e
        | .ok child' => .ok (.tree (setKey es prop child'))
      else
        match skipCreate rest with
        | .error e => .error e
        | .ok child' => .ok (.tree (setKey es prop child'))
    | none =>
      match skipCreate rest with
      | .error e => .error e
      | .ok child' => .ok (.tree (setKey es prop child'))
  | .tru, _ :: _ => .error ()
  | .fls, _ :: _ => .error ()

/-- `skipTree`: builds the skip-rule tree from the flat pattern list. -/
def skipTree (skip : List String) : Except Unit SkipValue :=
  skip.foldlM (fun t p => skipInsert t (jsSplit p '.')) (SkipValue.tree [])

/-- Whether the first list starts the second one. -/
def leadsWith : List Char → List Char → Bool
  | [], _ => true
  | _ :: _, [] => false
  | c :: cs, d :: ds => c == d && leadsWith cs ds

/-- Suffix of `s` that follows the first occurrence of `pat` as a
contiguous substring, if any. -/
def dropAfterSub (pat : List Char) : List Char → Option (List Char)
  | [] => if leadsWith pat [] then some [] else none
  | s@(_ :: s') =>
    if leadsWith pat s then some (s.drop pat.length)
    else dropAfterSub pat s'

/-- Unanchored test of the regex obtained from a wildcard pattern by
`pattern.replace(/\*‎/g, '.*')`: the literal chunks (the pieces of the
pattern split on `*`) must occur left to right as substrings of the
name.  Faithful for patterns without further regex metacharacters. -/
def chunksMatch : List String → List Char → Bool
  | [], _ => true
  | c :: rest, s =>
    match dropAfterSub c.toList s with
    | some s' => chunksMatch rest s'
    | none => false

/-- The wildcard regex test `new RegExp(pattern.replace(RX_AST, '.*')).test(node)`. -/
def wildcardTest (pattern node : String) : Bool :=
  chunksMatch ((splitOnChar '*' pattern.data).map (fun l => String.mk l)) node.data

/-- The wildcard scan of `verifySkip`: walk the keys containing `*` in
insertion order, remember the last matching value, stop early on `true`. -/
def verifySkipScan (node : String) : List (String × SkipValue) → SkipValue → SkipValue
  | [], acc => acc
  | (k, v) :: rest, acc =>
    if strHasChar k '*' && wildcardTest k node then
      match v with
      | .tru => .tru
      | _ => verifySkipScan node rest v
    else verifySkipScan node rest acc

/-- `verifySkip`: exact key first (when truthy), then the wildcard scan.
A falsy scope returns `false`; the primitive `true` as scope has no keys
and yields `false` as well. -/
def verifySkip (node : String) (skip : SkipValue) : SkipValue :=
  match skip with
  | .fls => .fls
  | .tru => .fls
  | .tree es =>
    match lookupKey es node with
    | some v => if v.truthy then v else verifySkipScan node es .fls
    | none => verifySkipScan node es .fls

/-- `MapResultKey = false | MapResult`: the field tree.  `leaf` is the JS
`false` sentinel, `node` a nested mapping. -/
inductive MapResultKey where
  | leaf : MapResultKey
  | node (entries : List (String × MapResultKey)) : MapResultKey
deriving Repr

/-- `root[name] || (nodes.length ? {} : false)` for the no-children case:
an existing truthy (object) entry is kept, otherwise the leaf sentinel. -/
def leafValue (root : List (String × MapResultKey)) (name : String) : MapResultKey :=
  match lookupKey root name with
  | some (.node es) => .node es
  | _ => .leaf

/-- The entries of `root[name] || {}` used as recursion target when the
field has children: an existing object entry is reused, a missing or leaf
entry is replaced by a fresh empty object. -/
def childEntries (root : List (String × MapResultKey)) (name : String) :
    List (String × MapResultKey) :=
  match lookupKey root name with
  | some (.node es) => es
  | _ => []

/-- `TraverseOptions`. -/
structure TraverseOptions where
  fragments : List (String × FragmentDefinitionNode)
  vars : List (String × Bool)
  withVars : Bool
deriving Repr

/-- The body of `traverse`'s `for` loop for a single selection node,
abstracted over the recursive descent `recur` (which `traverse` supplies
as itself at one unit of fuel less, a descent costing one JS stack
frame). -/
def processNodeGo
    (recur : List SelectionNode → List (String × MapResultKey) →
      TraverseOptions → SkipValue → Except Unit (List (String × MapResultKey)))
    (n : SelectionNode) (root : List (String × MapResultKey))
    (opts : TraverseOptions) (skip : SkipValue) :
    Except Unit (List (String × MapResultKey)) :=
  if opts.withVars && !(verifyDirectives n.directives opts.vars) then .ok root
  else
    match n with
    | .inlineFragment _ ss =>
      if ss.isEmpty then .ok root else recur ss root opts skip
    | .field name _ oss =>
      match lookupKey opts.fragments name with
      | some frag => recur frag.selections root opts skip
      | none =>
        match verifySkip name skip with
        | .tru => .ok root
        | nodeSkip =>
          match oss with
          | none => .ok (setKey root name (leafValue root name))
          | some xs =>
            if xs.isEmpty then .ok (setKey root name (leafValue root name))
            else
              match recur xs (childEntries root name) opts nodeSkip with
              | .error e => .error e
              | .ok es' => .ok (setKey root name (.node es'))
    | .fragmentSpread name _ =>
      match lookupKey opts.fragments name with
      | some frag => recur frag.selections root opts skip
      | none =>
        match verifySkip name skip with
        | .tru => .ok root
        | _ => .ok (setKey root name (leafValue root name))

/-- The `for` loop of `traverse` over the selection-node list, threading
the accumulated field tree and propagating a thrown exception. -/
def traverseGo
    (recur : List SelectionNode → List (String × MapResultKey) →
      TraverseOptions → SkipValue → Except Unit (List (String × MapResultKey))) :
    List SelectionNode → List (String × MapResultKey) → TraverseOptions →
    SkipValue → Except Unit (List (String × MapResultKey))
  | [], root, _, _ => .ok root
  | n :: rest, root, opts, skip =>
    match processNodeGo recur n root opts skip with
    | .error e => .error e
    | .ok root' => traverseGo recur rest root' opts skip

/-- `traverse`: each level of descent (into an inline fragment's or a
field's selection set, or into a fragment expansion) costs one unit of
fuel, the model of a JS stack frame; exhausted fuel is the stack overflow
the engine runs into on cyclic fragment tables (or absurdly deep
selections). -/
def traverse : Nat → List SelectionNode → List (String × MapResultKey) →
    TraverseOptions → SkipValue → Except Unit (List (String × MapResultKey))
  | 0, _, _, _, _ => .error ()
  | fuel + 1, nodes, root, opts, skip => traverseGo (traverse fuel) nodes root opts skip

/-- `getBranch`'s descent loop over the dot-separated path segments: a
missing or falsy (leaf) entry yields the empty object `{}`. -/
def getBranchGo : List (String × MapResultKey) → List String →
    List (String × MapResultKey)
  | branch, [] => branch
  | branch, seg :: rest =>
    match lookupKey branch seg with
    | some (.node es) => getBranchGo es rest
    | some .leaf => []
    | none => []

/-- `getBranch`: an absent or empty (falsy) path returns the whole tree,
otherwise descend segment by segment. -/
def getBranch (tree : List (String × MapResultKey)) (path : Option String) :
    List (String × MapResultKey) :=
  match path with
  | none => tree
  | some p => if p == "" then tree else getBranchGo tree (jsSplit p '.')

/-- The legacy shim of `verifyInfo`: when `fieldNodes` is absent but the
old-style `fieldASTs` is present, the selection nodes are copied onto
`fieldNodes` — mutating the caller's info object in place. -/
def normalizeInfo (info : GraphQLResolveInfo) : GraphQLResolveInfo :=
  if info.fieldNodes.isNone && info.fieldASTs.isSome then
    { info with fieldNodes := info.fieldASTs }
  else info

/-- `verifyFieldNode`: the first node of `fieldNodes` whose name equals the
declared `fieldName`, if it also carries a selection set. -/
def verifyFieldNode (info : GraphQLResolveInfo) : Option SelectionNode :=
  match (info.fieldNodes.getD []).find?
      (fun n => n.nameVal == some info.fieldName) with
  | some fieldNode =>
    if (SelectionNode.selectionSet fieldNode).isSome then some fieldNode else none
  | none => none

/-- `parseOptions`: an omitted options argument yields the bare `{}`
(leaving `withDirectives` unset); a provided options object gets
`withDirectives` defaulted to `true` when unset. -/
def parseOptions (options : Option FieldsListOptions) : FieldsListOptions :=
  match options with
  | none => {}
  | some o =>
    if o.withDirectives.isNone then { o with withDirectives := some true } else o

/-- The part of `fieldsMap` that follows the info validation: compile the
skip patterns, traverse the field node's selections, navigate the path. -/
def fieldsMapCore (fuel : Nat) (info : GraphQLResolveInfo)
    (options : Option FieldsListOptions) :
    Except Unit (List (String × MapResultKey)) :=
  match verifyFieldNode info with
  | none => .ok []
  | some fieldNode =>
    let opts := parseOptions options
    match skipTree (opts.skip.getD []) with
    | .error e => .error e
    | .ok st =>
      match traverse fuel fieldNode.getNodes []
          ⟨info.fragments, info.variableValues, opts.withDirectives.getD false⟩ st with
      | .error e => .error e
      | .ok tree => .ok (getBranch tree opts.path)

/-- `fieldsMap`, with the call's effect on the info object made explicit:
the second component is the info object as the caller observes it after
the call (the legacy shim mutates it in place). -/
def fieldsMapRun (fuel : Nat) (info : Option GraphQLResolveInfo)
    (options : Option FieldsListOptions) :
    Except Unit (List (String × MapResultKey)) × Option GraphQLResolveInfo :=
  match info with
  | none => (.ok [], none)
  | some i =>
    let i' := normalizeInfo i
    (fieldsMapCore fuel i' options, some i')

/-- `options.transform?.[field] || field` (an empty replacement string is
falsy and falls back to the field name). -/
def transformField (transform : Option (List (String × String)))
    (field : String) : String :=
  match lookupKey (transform.getD []) field with
  | some t => if t == "" then field else t
  | none => field

/-- `fieldsList`: the keys of the fields map, each rewritten through the
transform table.  The options argument defaults to `{}` in the source, so
it is always a present object here. -/
def fieldsListRun (fuel : Nat) (info : Option GraphQLResolveInfo)
    (options : FieldsListOptions) :
    Except Unit (List String) × Option GraphQLResolveInfo :=
  let r := fieldsMapRun fuel info (some options)
  (r.1.map (fun tree => (tree.map Prod.fst).map (transformField options.transform)),
   r.2)

/-- `${parent ? parent + '.' : ''}${child}`. -/
def toDotNotation (parent child : String) : String :=
  if parent == "" then child else parent ++ "." ++ child

/-- One queue item of `fieldsProjection`'s breadth-first loop, processed
entry by entry: a truthy (object) entry is recorded under its dot path
when `keepParentField` is set (untransformed) and queued for the next
round; a leaf entry is recorded under its dot path, rewritten when the
transform table has a truthy entry for it.  Returns the updated
projection map and the sub-items this item pushes, in push order. -/
def projEntries (keepParent : Bool) (transform : Option (List (String × String))) :
    String → List (String × MapResultKey) → List (String × Nat) →
    List (String × Nat) × List (String × List (String × MapResultKey))
  | _, [], map => (map, [])
  | parent, (j, .node es) :: ts, map =>
    let nodeDottedName := toDotNotation parent j
    let map1 := if keepParent then setKey map nodeDottedName 1 else map
    match projEntries keepParent transform parent ts map1 with
    | (map2, pushes) => (map2, (nodeDottedName, es) :: pushes)
  | parent, (j, .leaf) :: ts, map =>
    let dotName := toDotNotation parent j
    let dotName' := match lookupKey (transform.getD []) dotName with
      | some t => if t == "" then dotName else t
      | none => dotName
    projEntries keepParent transform parent ts (setKey map dotName' 1)

/-- One round of the breadth-first loop: process every queued item in
order, collecting the items they push (in order) for the next round. -/
def projItems (keepParent : Bool) (transform : Option (List (String × String))) :
    List (String × List (String × MapResultKey)) → List (String × Nat) →
    List (String × Nat) × List (String × List (String × MapResultKey))
  | [], map => (map, [])
  | (parent, es) :: rest, map =>
    match projEntries keepParent transform parent es map with
    | (map1, pushes) =>
      match projItems keepParent transform rest map1 with
      | (map2, pushes2) => (map2, pushes ++ pushes2)

/-- The breadth-first `while (stack.length)` loop of `fieldsProjection`.
A FIFO queue seeded with one item processes the tree level by level (the
pushes of one level are exactly the next level, in order), so the loop is
the level iteration of `projItems`; the level count is bounded by the
tree's depth, which the `fuel` of the `traverse` that built the tree
already bounds, so the entry point runs it with that fuel plus one. -/
def projLevels (keepParent : Bool) (transform : Option (List (String × String))) :
    Nat → List (String × List (String × MapResultKey)) → List (String × Nat) →
    List (String × Nat)
  | 0, _, map => map
  | d + 1, items, map =>
    match projItems keepParent transform items map with
    | (map', next) =>
      match next with
      | [] => map'
      | _ :: _ => projLevels keepParent transform d next map'

/-- `fieldsProjection`: flatten the fields map breadth first into a
mapping from dot path to `1`. -/
def fieldsProjectionRun (fuel : Nat) (info : Option GraphQLResolveInfo)
    (options : Option FieldsListOptions) :
    Except Unit (List (String × Nat)) × Option GraphQLResolveInfo :=
  let r := fieldsMapRun fuel info options
  let keepParent := ((options.bind (·.keepParentField)).getD false)
  let transform := (options.getD {}).transform
  (r.1.map (fun tree => projLevels keepParent transform (fuel + 1) [("", tree)] []), r.2)

/-! ## Observation helpers -/

/-- Whether the dot path (given as its segment list) denotes a field
present in a field tree; the empty path denotes the root. -/
def hasPath : List (String × MapResultKey) → List String → Bool
  | _, [] => true
  | es, k :: p =>
    match lookupKey es k with
    | none => false
    | some .leaf => p.isEmpty
    | some (.node es') => hasPath es' p

/-- The field-tree value at a dot path; the empty path is the root node. -/
def valAt : List (String × MapResultKey) → List String → Option MapResultKey
  | es, [] => some (.node es)
  | es, k :: p =>
    match lookupKey es k with
    | some (.node es') => valAt es' p
    | some .leaf => if p.isEmpty then some .leaf else none
    | none => none

/-- Whether a field-tree value is the leaf sentinel. -/
def isLeafB : MapResultKey → Bool
  | .leaf => true
  | .node _ => false
/-! ## Claim C8: exception freedom -/

/-- A character safe for the wildcard-regex model: the compiled
`new RegExp(pattern.replace(/\*‎/g, '.*'))` has no metacharacters beyond
the substituted `*` exactly when the pattern stays within this set. -/
def safePatternChar (c : Char) : Bool :=
  c.isAlphanum || c == '.' || c == '*' || c == '_'

/-- A skip pattern within the modelled wildcard-glob fragment. -/
def safePattern (p : String) : Bool :=
  p.data.all safePatternChar

/-- A resolver info with the simple query `q { a }`. -/
def c8Info : GraphQLResolveInfo :=
  { fieldName := "q"
    fieldNodes := some [.field "q" [] (some [.field "a" [] none])]
    fieldASTs := none
    fragments := []
    variableValues := [] }

/-- C8, refuted: a skip pattern with a wildcard in a non-terminal segment
(`a.*.b`), or a pattern list where one pattern is a dot-path prefix of a
later one (`["a", "a.b"]`), makes `skipTree` assign a property on the
primitive `true` — a strict-mode `TypeError` — so all three entry points
throw instead of terminating normally. -/
theorem claim_C8_counterexample :
    (fieldsMapRun 20 (some c8Info) (some { skip := some ["a.*.b"] })).1 = .error ()
    ∧ (fieldsListRun 20 (some c8Info) { skip := some ["a.*.b"] }).1 = .error ()
    ∧ (fieldsProjectionRun 20 (some c8Info) (some { skip := some ["a.*.b"] })).1
        = .error ()
    ∧ (fieldsMapRun 20 (some c8Info) (some { skip := some ["a", "a.b"] })).1
        = .error () :=
  ⟨rfl, rfl, rfl, rfl⟩

/-- C8 as amended: the entry points throw only out of the two modelled
exception sources — skip-list compilation (the strict-mode `TypeError` on
patterns extending an exclude-entirely path) and stack exhaustion of the
fragment-expanding traversal (cyclic fragment tables).  Whenever the skip
patterns stay within the modelled wildcard-glob fragment, the skip-tree
compilation succeeds, and the traversal completes within the stack budget,
`fieldsMap`, `fieldsList` and `fieldsProjection` all terminate without
throwing. -/
theorem claim_C8_no_throw (fuel : Nat) (oi : Option GraphQLResolveInfo)
    (o : FieldsListOptions) (st : SkipValue)
    (_hsafe : ∀ p ∈ o.skip.getD [], safePattern p = true)
    (hst : skipTree (o.skip.getD []) = .ok st)
    (htr : ∀ i fieldNode, oi = some i →
      verifyFieldNode (normalizeInfo i) = some fieldNode →
      ∃ t, traverse fuel fieldNode.getNodes []
        ⟨(normalizeInfo i).fragments, (normalizeInfo i).variableValues,
         (parseOptions (some o)).withDirectives.getD false⟩ st = .ok t) :
    (∃ t, (fieldsMapRun fuel oi (some o)).1 = .ok t)
    ∧ (∃ l, (fieldsListRun fuel oi o).1 = .ok l)
    ∧ (∃ m, (fieldsProjectionRun fuel oi (some o)).1 = .ok m) := by
  have hskip : (parseOptions (some o)).skip = o.skip := by
    show (if o.withDirectives.isNone = true then
      { o with withDirectives := some true } else o).skip = o.skip
    split <;> rfl
  have hcore : ∃ t, (fieldsMapRun fuel oi (some o)).1 = .ok t := by
    cases oi with
    | none => exact ⟨[], rfl⟩
    | some i =>
      cases hvf : verifyFieldNode (normalizeInfo i) with
      | none =>
        refine ⟨[], ?_⟩
        simp [fieldsMapRun, fieldsMapCore, hvf]
      | some fieldNode =>
        obtain ⟨t, ht⟩ := htr i fieldNode rfl hvf
        refine ⟨getBranch t (parseOptions (some o)).path, ?_⟩
        simp only [fieldsMapRun, fieldsMapCore, hskip, hvf, hst, ht]
  obtain ⟨t, ht⟩ := hcore
  refine ⟨⟨t, ht⟩, ?_, ?_⟩
  · simp only [fieldsListRun, ht]
    exact ⟨_, rfl⟩
  · simp only [fieldsProjectionRun, ht]
    exact ⟨_, rfl⟩

/-- Witness for `claim_C8_no_throw` at a concrete input. -/
theorem claim_C8_witness :
    (∃ t, (fieldsMapRun 3 (some c8Info) (some { skip := some ["a.c"] })).1 = .ok t)
    ∧ (∃ l, (fieldsListRun 3 (some c8Info) { skip := some ["a.c"] }).1 = .ok l)
    ∧ (∃ m, (fieldsProjectionRun 3 (some c8Info)
        (some { skip := some ["a.c"] })).1 = .ok m) := by
  apply claim_C8_no_throw 3 (some c8Info) { skip := some ["a.c"] }
    (.tree [("a", .tree [("c", .tru)])])
  · intro p hp
    rw [show ({ skip := some ["a.c"] } : FieldsListOptions).skip.getD [] = ["a.c"]
      from rfl, List.mem_singleton] at hp
    subst hp
    rfl
  · rfl
  · intro i fieldNode hi hvf
    injection hi with hi
    subst hi
    rw [show verifyFieldNode (normalizeInfo c8Info)
      = some (.field "q" [] (some [.field "a" [] none])) from rfl] at hvf
    injection hvf with hvf
    subst hvf
    exact ⟨[("a", .leaf)], rfl⟩

end GFL

namespace GFL

/-! ## Claim C4: directive evaluation semantics -/

/-- The effective boolean value of a directive argument, following the
claim's wording: the literal for a boolean literal, the bound value for a
variable reference, and no value (no constraint) for any other kind. -/
def effectiveValue (vars : List (String × Bool)) : JsValue → Option Bool
  | .booleanValue b => some b
  | .variableRef v => some ((lookupKey vars v).getD false)
  | .otherValue => none

/-- A single directive passes, following the claim's wording: `skip`
passes iff every evaluable argument is false, `include` passes iff every
evaluable argument is true, any other directive name always passes, and
arguments without an effective value (as well as an empty argument list)
impose no constraint. -/
def directivePassesSpec (vars : List (String × Bool)) (d : DirectiveNode) : Bool :=
  if d.name == "skip" then
    d.arguments.all (fun a =>
      match effectiveValue vars a.value with
      | some b => !b
      | none => true)
  else if d.name == "include" then
    d.arguments.all (fun a =>
      match effectiveValue vars a.value with
      | some b => b
      | none => true)
  else true

theorem listAllCongr {α : Type} (p q : α → Bool) (l : List α)
    (h : ∀ x ∈ l, p x = q x) : l.all p = l.all q := by
  induction l with
  | nil => rfl
  | cons x xs ih =>
    simp only [List.all_cons, h x (List.mem_cons_self x xs)]
    rw [ih (fun y hy => h y (List.mem_cons_of_mem x hy))]

theorem verifyDirective_eq_spec (d : DirectiveNode) (vars : List (String × Bool)) :
    verifyDirective d vars = directivePassesSpec vars d := by
  unfold verifyDirective directivePassesSpec
  by_cases hs : d.name = "skip"
  · simp only [hs]
    simp only [show ("skip" != "include") = true from rfl,
      show ("skip" != "skip") = false from rfl, Bool.true_and, Bool.and_false]
    simp only [if_pos rfl, Bool.false_eq_true, if_false]
    apply listAllCongr
    intro a _
    cases a with
    | mk v =>
      cases v <;> simp [verifyDirectiveArg, checkValue, effectiveValue]
  · by_cases hi : d.name = "include"
    · simp only [hi]
      simp only [show ("include" != "include") = false from rfl, Bool.false_and]
      simp only [show (("include" : String) == "skip") = false from rfl,
        Bool.false_eq_true, if_false, if_pos rfl]
      apply listAllCongr
      intro a _
      cases a with
      | mk v =>
        cases v <;> simp [verifyDirectiveArg, checkValue, effectiveValue]
    · have h1 : (d.name != "include") = true := by
        simp [bne_iff_ne, hi]
      have h2 : (d.name != "skip") = true := by
        simp [bne_iff_ne, hs]
      have h3 : (d.name == "skip") = false := by
        simp [hs]
      have h4 : (d.name == "include") = false := by
        simp [hi]
      simp [h1, h2, h3, h4]

/-- C4: a selection node survives directive evaluation iff every directive
on it individually passes (logical AND), where `skip` passes iff the
effective boolean argument value is false, `include` passes iff it is
true, any other directive name always passes, and a non-evaluable argument
or an empty argument list imposes no constraint. -/
theorem claim_C4_directive_evaluation (ds : List DirectiveNode)
    (vars : List (String × Bool)) :
    verifyDirectives ds vars = ds.all (directivePassesSpec vars) := by
  unfold verifyDirectives
  apply listAllCongr
  intro d _
  exact verifyDirective_eq_spec d vars

/-! ## Claim C3: the `withDirectives` default -/

/-- A resolver info whose query is `q { d @skip(if: true) }`. -/
def c3Info : GraphQLResolveInfo :=
  { fieldName := "q"
    fieldNodes := some [.field "q" []
      (some [.field "d" [⟨"skip", [⟨.booleanValue true⟩]⟩] none])]
    fieldASTs := none
    fragments := []
    variableValues := [] }

/-- C3 (refuting the claim as stated, exhibiting the code bug): with the
options argument omitted entirely, `parseOptions` returns the bare `{}`
without defaulting `withDirectives`, so directives are not evaluated and
the `@skip(if: true)` field survives; with any provided options object
(even `{}`), `withDirectives` defaults to `true` and the field is dropped.
The README documents directive support as "enabled by default". -/
theorem claim_C3_default_divergence :
    (fieldsMapRun 20 (some c3Info) none).1 = .ok [("d", .leaf)]
    ∧ (fieldsMapRun 20 (some c3Info) (some {})).1 = .ok []
    ∧ (fieldsMapRun 20 (some c3Info) (some { withDirectives := some true })).1 = .ok []
    ∧ (fieldsMapRun 20 (some c3Info) none).1
        ≠ (fieldsMapRun 20 (some c3Info) (some { withDirectives := some true })).1 := by
  refine ⟨rfl, rfl, rfl, ?_⟩
  intro h
  rw [show (fieldsMapRun 20 (some c3Info) none).1 = .ok [("d", .leaf)] from rfl,
    show (fieldsMapRun 20 (some c3Info) (some { withDirectives := some true })).1
      = .ok [] from rfl] at h
  simp at h

/-! ## Claim C1: reference to an undefined fragment -/

/-- A resolver info whose query is `q { ...F }` with no fragment table. -/
def c1Info : GraphQLResolveInfo :=
  { fieldName := "q"
    fieldNodes := some [.field "q" [] (some [.fragmentSpread "F" []])]
    fieldASTs := none
    fragments := []
    variableValues := [] }

/-- The same info with the undefined fragment reference removed. -/
def c1InfoRemoved : GraphQLResolveInfo :=
  { fieldName := "q"
    fieldNodes := some [.field "q" [] (some [])]
    fieldASTs := none
    fragments := []
    variableValues := [] }

/-- C1, refuted: a fragment-reference node naming a fragment absent from
the Fragment Table does NOT contribute nothing — it falls through to the
plain-field handling and creates a leaf entry named after the fragment, so
the output differs from the output with the reference removed (and the
name also shows up in the list and projection views). -/
theorem claim_C1_counterexample :
    (fieldsMapRun 20 (some c1Info) none).1 = .ok [("F", .leaf)]
    ∧ (fieldsMapRun 20 (some c1InfoRemoved) none).1 = .ok []
    ∧ (fieldsListRun 20 (some c1Info) {}).1 = .ok ["F"]
    ∧ (fieldsProjectionRun 20 (some c1Info) none).1 = .ok [("F", 1)]
    ∧ (fieldsMapRun 20 (some c1Info) none).1
        ≠ (fieldsMapRun 20 (some c1InfoRemoved) none).1 := by
  refine ⟨rfl, rfl, rfl, rfl, ?_⟩
  intro h
  rw [show (fieldsMapRun 20 (some c1Info) none).1 = .ok [("F", .leaf)] from rfl,
    show (fieldsMapRun 20 (some c1InfoRemoved) none).1 = .ok [] from rfl] at h
  simp at h

/-- C1 as amended: a reference to an undefined fragment name is processed
exactly like a leaf field named after the fragment — it creates a leaf
entry under the fragment's name (unless directives or a skip rule drop
it), rather than contributing nothing; no error is raised either way. -/
theorem claim_C1_undefined_fragment_as_leaf_field
    (recur : List SelectionNode → List (String × MapResultKey) →
      TraverseOptions → SkipValue → Except Unit (List (String × MapResultKey)))
    (name : String) (ds : List DirectiveNode)
    (root : List (String × MapResultKey)) (opts : TraverseOptions)
    (skip : SkipValue)
    (h : lookupKey opts.fragments name = none) :
    processNodeGo recur (.fragmentSpread name ds) root opts skip
      = processNodeGo recur (.field name ds none) root opts skip
    ∧ ((opts.withVars && !(verifyDirectives ds opts.vars)) = false →
       verifySkip name skip ≠ SkipValue.tru →
       processNodeGo recur (.fragmentSpread name ds) root opts skip
         = .ok (setKey root name (leafValue root name))) := by
  constructor
  · by_cases hg : (opts.withVars && !(verifyDirectives ds opts.vars)) = true
    · simp [processNodeGo, SelectionNode.directives, hg]
    · rw [Bool.not_eq_true] at hg
      cases hvs : verifySkip name skip <;>
        simp [processNodeGo, SelectionNode.directives, hg, h, hvs]
  · intro hg hvs
    cases hvs' : verifySkip name skip with
    | tru => exact absurd hvs' hvs
    | fls => simp [processNodeGo, SelectionNode.directives, hg, h, hvs']
    | tree es => simp [processNodeGo, SelectionNode.directives, hg, h, hvs']

/-- Witness for `claim_C1_undefined_fragment_as_leaf_field` at a concrete
input. -/
theorem claim_C1_witness :
    processNodeGo (traverse 5) (.fragmentSpread "F" []) [] ⟨[], [], false⟩ .fls
      = processNodeGo (traverse 5) (.field "F" [] none) [] ⟨[], [], false⟩ .fls
    ∧ processNodeGo (traverse 5) (.fragmentSpread "F" []) [] ⟨[], [], false⟩ .fls
      = .ok [("F", .leaf)] := by
  have h := claim_C1_undefined_fragment_as_leaf_field (traverse 5) "F" [] []
    ⟨[], [], false⟩ .fls rfl
  exact ⟨h.1, h.2 rfl (fun hh => SkipValue.noConfusion hh)⟩

/-! ## Claim C10: fragment-ness decided by name lookup, not node kind -/

/-- C10: a plain field node whose name is a key of the Fragment Table is
treated as a fragment reference: it behaves exactly like a fragment-spread
node of that name (first conjunct), and — when its directives pass — the
fragment's selection set is expanded in place into the current tree level,
the field's own selection set being ignored and no entry being created
under the field's own name beyond what the expansion itself produces
(second conjunct). -/
theorem claim_C10_field_name_hits_fragment_table
    (recur : List SelectionNode → List (String × MapResultKey) →
      TraverseOptions → SkipValue → Except Unit (List (String × MapResultKey)))
    (name : String) (ds : List DirectiveNode)
    (oss : Option (List SelectionNode))
    (root : List (String × MapResultKey)) (opts : TraverseOptions)
    (skip : SkipValue) (frag : FragmentDefinitionNode)
    (h : lookupKey opts.fragments name = some frag) :
    processNodeGo recur (.field name ds oss) root opts skip
      = processNodeGo recur (.fragmentSpread name ds) root opts skip
    ∧ ((opts.withVars && !(verifyDirectives ds opts.vars)) = false →
       processNodeGo recur (.field name ds oss) root opts skip
         = recur frag.selections root opts skip) := by
  constructor
  · by_cases hg : (opts.withVars && !(verifyDirectives ds opts.vars)) = true
    · simp [processNodeGo, SelectionNode.directives, hg]
    · rw [Bool.not_eq_true] at hg
      simp [processNodeGo, SelectionNode.directives, hg, h]
  · intro hg
    simp [processNodeGo, SelectionNode.directives, hg, h]

/-- Witness for `claim_C10_field_name_hits_fragment_table` at a concrete
input: the field `F` carries its own selection set `{ y }`, yet the
expansion of fragment `F = { x }` is what ends up in the tree. -/
theorem claim_C10_witness :
    processNodeGo (traverse 5) (.field "F" [] (some [.field "y" [] none])) []
        ⟨[("F", ⟨[.field "x" [] none]⟩)], [], false⟩ .fls
      = .ok [("x", .leaf)]
    ∧ processNodeGo (traverse 5) (.field "F" [] (some [.field "y" [] none])) []
        ⟨[("F", ⟨[.field "x" [] none]⟩)], [], false⟩ .fls
      = processNodeGo (traverse 5) (.fragmentSpread "F" []) []
        ⟨[("F", ⟨[.field "x" [] none]⟩)], [], false⟩ .fls := by
  have h := claim_C10_field_name_hits_fragment_table (traverse 5) "F" []
    (some [.field "y" [] none]) [] ⟨[("F", ⟨[.field "x" [] none]⟩)], [], false⟩
    .fls ⟨[.field "x" [] none]⟩ rfl
  refine ⟨?_, h.1⟩
  rw [h.2 rfl]
  rfl

/-! ## Claim C6: absent or malformed input yields empty results -/

theorem normalizeInfo_fieldName (i : GraphQLResolveInfo) :
    (normalizeInfo i).fieldName = i.fieldName := by
  unfold normalizeInfo
  split <;> rfl

theorem find_none_of_no_matching_name (ns : List SelectionNode) (fieldName : String)
    (h : ∀ n ∈ ns, SelectionNode.nameVal n ≠ some fieldName) :
    ns.find? (fun m => m.nameVal == some fieldName) = none := by
  apply List.find?_eq_none.mpr
  intro n hn
  simp only [beq_eq_false_iff_ne.mpr (h n hn), Bool.false_eq_true, not_false_eq_true]

theorem verifyFieldNode_none_cases (i : GraphQLResolveInfo)
    (h : (normalizeInfo i).fieldNodes = none
      ∨ (normalizeInfo i).fieldNodes = some []
      ∨ (∃ ns, (normalizeInfo i).fieldNodes = some ns
          ∧ ∀ n ∈ ns, SelectionNode.nameVal n ≠ some i.fieldName)
      ∨ (∃ ns n, (normalizeInfo i).fieldNodes = some ns
          ∧ ns.find? (fun m => m.nameVal == some i.fieldName) = some n
          ∧ SelectionNode.selectionSet n = none)) :
    verifyFieldNode (normalizeInfo i) = none := by
  unfold verifyFieldNode
  rw [normalizeInfo_fieldName]
  rcases h with h | h | ⟨ns, hns, hall⟩ | ⟨ns, n, hns, hfind, hss⟩
  · rw [h]; rfl
  · rw [h]; rfl
  · rw [hns]
    simp only [Option.getD_some]
    rw [find_none_of_no_matching_name ns i.fieldName hall]
  · rw [hns]
    simp only [Option.getD_some]
    rw [hfind]
    simp [hss]

/-- C6: for every absent or malformed input — info missing, `fieldNodes`
missing (and not recovered from the legacy `fieldASTs`), `fieldNodes`
empty, no node named like the declared field, or the found node lacking a
selection set — `fieldsMap` returns the empty mapping, `fieldsList` the
empty sequence, `fieldsProjection` the empty mapping, and no error is
raised (the results are `.ok`). -/
theorem claim_C6_malformed_input_empty (fuel : Nat)
    (oi : Option GraphQLResolveInfo) (opts : Option FieldsListOptions)
    (optsL : FieldsListOptions)
    (h : oi = none ∨ ∃ i, oi = some i ∧
      ((normalizeInfo i).fieldNodes = none
        ∨ (normalizeInfo i).fieldNodes = some []
        ∨ (∃ ns, (normalizeInfo i).fieldNodes = some ns
            ∧ ∀ n ∈ ns, SelectionNode.nameVal n ≠ some i.fieldName)
        ∨ (∃ ns n, (normalizeInfo i).fieldNodes = some ns
            ∧ ns.find? (fun m => m.nameVal == some i.fieldName) = some n
            ∧ SelectionNode.selectionSet n = none))) :
    (fieldsMapRun fuel oi opts).1 = .ok []
    ∧ (fieldsListRun fuel oi optsL).1 = .ok []
    ∧ (fieldsProjectionRun fuel oi opts).1 = .ok [] := by
  have hcore : ∀ (options : Option FieldsListOptions),
      (fieldsMapRun fuel oi options).1 = .ok [] := by
    intro options
    rcases h with rfl | ⟨i, rfl, hi⟩
    · rfl
    · have hvf := verifyFieldNode_none_cases i hi
      simp [fieldsMapRun, fieldsMapCore, hvf]
  refine ⟨hcore opts, ?_, ?_⟩
  · simp only [fieldsListRun, hcore (some optsL)]
    rfl
  · simp only [fieldsProjectionRun, hcore opts]
    simp [Except.map, projLevels, projItems, projEntries]

/-- Witness for `claim_C6_malformed_input_empty`: an info object whose
only node is named differently from the declared field name. -/
theorem claim_C6_witness :
    (fieldsMapRun 7 (some ⟨"q", some [.field "other" [] (some [])], none, [], []⟩)
        none).1 = .ok []
    ∧ (fieldsListRun 7 (some ⟨"q", some [.field "other" [] (some [])], none, [], []⟩)
        {}).1 = .ok []
    ∧ (fieldsProjectionRun 7
        (some ⟨"q", some [.field "other" [] (some [])], none, [], []⟩) none).1
      = .ok [] := by
  apply claim_C6_malformed_input_empty
  refine Or.inr ⟨_, rfl, Or.inr (Or.inr (Or.inl ⟨[.field "other" [] (some [])], rfl, ?_⟩))⟩
  intro n hn
  rw [List.mem_singleton] at hn
  subst hn
  intro hc
  exact absurd (Option.some.inj hc) (by decide)

/-! ## Claim C7: path navigation on absent or leaf segments -/

/-- The claim's failure condition on a path: some segment is absent from
the current subtree, or resolves to the leaf sentinel with segments still
to go. -/
def pathFailsB : List (String × MapResultKey) → List String → Bool
  | _, [] => false
  | es, seg :: rest =>
    match lookupKey es seg with
    | none => true
    | some .leaf => !rest.isEmpty
    | some (.node es') => pathFailsB es' rest

theorem getBranchGo_empty_of_pathFails :
    ∀ (segs : List String) (es : List (String × MapResultKey)),
      pathFailsB es segs = true → getBranchGo es segs = [] := by
  intro segs
  induction segs with
  | nil => intro es h; simp [pathFailsB] at h
  | cons seg rest ih =>
    intro es h
    unfold pathFailsB at h
    unfold getBranchGo
    cases hl : lookupKey es seg with
    | none => rfl
    | some v =>
      cases v with
      | leaf => rfl
      | node es' =>
        rw [hl] at h
        exact ih es' h

/-- C7: when the failure condition holds on the built field tree for the
dot-separated path option, path navigation yields the empty tree, so
`fieldsMap` returns the empty mapping, `fieldsList` the empty sequence and
`fieldsProjection` the empty mapping — no error, and not the parent's full
tree. -/
theorem claim_C7_path_navigation_empty (fuel : Nat)
    (info : GraphQLResolveInfo) (o : FieldsListOptions) (p : String)
    (fieldNode : SelectionNode) (st : SkipValue)
    (t : List (String × MapResultKey))
    (hp : (parseOptions (some o)).path = some p) (hne : p ≠ "")
    (hvf : verifyFieldNode (normalizeInfo info) = some fieldNode)
    (hst : skipTree ((parseOptions (some o)).skip.getD []) = .ok st)
    (htr : traverse fuel fieldNode.getNodes []
      ⟨(normalizeInfo info).fragments, (normalizeInfo info).variableValues,
       (parseOptions (some o)).withDirectives.getD false⟩ st = .ok t)
    (hfail : pathFailsB t (jsSplit p '.') = true) :
    (fieldsMapRun fuel (some info) (some o)).1 = .ok []
    ∧ (fieldsListRun fuel (some info) o).1 = .ok []
    ∧ (fieldsProjectionRun fuel (some info) (some o)).1 = .ok [] := by
  have hcore : (fieldsMapRun fuel (some info) (some o)).1 = .ok [] := by
    have hpeq : (p == "") = false := beq_eq_false_iff_ne.mpr hne
    simp only [fieldsMapRun, fieldsMapCore, hvf, hst, htr, hp, getBranch, hpeq,
      Bool.false_eq_true, if_false]
    rw [getBranchGo_empty_of_pathFails _ _ hfail]
  refine ⟨hcore, ?_, ?_⟩
  · simp only [fieldsListRun, hcore]
    rfl
  · simp only [fieldsProjectionRun, hcore]
    simp [Except.map, projLevels, projItems, projEntries]

/-- Witness for `claim_C7_path_navigation_empty`: path `a.x` into the
tree `{ a: false }` — the first segment is a leaf before the path is
exhausted. -/
theorem claim_C7_witness :
    (fieldsMapRun 7 (some ⟨"q", some [.field "q" [] (some [.field "a" [] none])],
      none, [], []⟩) (some { path := some "a.x" })).1 = .ok []
    ∧ (fieldsListRun 7 (some ⟨"q", some [.field "q" [] (some [.field "a" [] none])],
      none, [], []⟩) { path := some "a.x" }).1 = .ok []
    ∧ (fieldsProjectionRun 7 (some ⟨"q", some [.field "q" [] (some [.field "a" [] none])],
      none, [], []⟩) (some { path := some "a.x" })).1 = .ok [] := by
  exact claim_C7_path_navigation_empty 7 _ { path := some "a.x" } "a.x"
    (.field "q" [] (some [.field "a" [] none])) (.tree []) [("a", .leaf)]
    rfl (by decide) rfl rfl rfl rfl

/-! ## Claim C9: the input info object is mutated by the legacy shim -/

/-- A legacy-shaped resolver info: selection nodes only under `fieldASTs`. -/
def c9Legacy : GraphQLResolveInfo :=
  { fieldName := "q"
    fieldNodes := none
    fieldASTs := some [.field "q" [] (some [.field "a" [] none])]
    fragments := []
    variableValues := [] }

/-- C9, refuted: for a legacy-shaped input, `verifyInfo` assigns
`info.fieldNodes = info.fieldASTs` on the caller's object, so the info
object observed after the call differs from the one passed in. -/
theorem claim_C9_counterexample :
    (fieldsMapRun 20 (some c9Legacy) none).2
      = some { c9Legacy with fieldNodes := c9Legacy.fieldASTs }
    ∧ (fieldsMapRun 20 (some c9Legacy) none).2 ≠ some c9Legacy := by
  refine ⟨rfl, ?_⟩
  intro h
  rw [show (fieldsMapRun 20 (some c9Legacy) none).2
    = some { c9Legacy with fieldNodes := c9Legacy.fieldASTs } from rfl] at h
  have h2 := congrArg (fun x => match x with
    | some i => i.fieldNodes.isSome
    | none => false) h
  simp [c9Legacy] at h2

/-- C9 as amended: after any of the three calls the caller's info object
is `normalizeInfo` of the one passed in — unchanged except that a
legacy-shaped input (no `fieldNodes`, `fieldASTs` present) gets the
selection nodes copied onto `fieldNodes`; `fragments`, `variableValues`,
`fieldName` and `fieldASTs` are never modified, and a non-legacy input is
returned exactly as passed. -/
theorem claim_C9_info_frame (fuel : Nat) (oi : Option GraphQLResolveInfo)
    (opts : Option FieldsListOptions) (o : FieldsListOptions) :
    (fieldsMapRun fuel oi opts).2 = oi.map normalizeInfo
    ∧ (fieldsListRun fuel oi o).2 = oi.map normalizeInfo
    ∧ (fieldsProjectionRun fuel oi opts).2 = oi.map normalizeInfo
    ∧ (∀ i : GraphQLResolveInfo, i.fieldNodes.isSome ∨ i.fieldASTs.isNone →
        normalizeInfo i = i)
    ∧ (∀ i : GraphQLResolveInfo,
        (normalizeInfo i).fragments = i.fragments
        ∧ (normalizeInfo i).variableValues = i.variableValues
        ∧ (normalizeInfo i).fieldName = i.fieldName
        ∧ (normalizeInfo i).fieldASTs = i.fieldASTs) := by
  refine ⟨?_, ?_, ?_, ?_, ?_⟩
  · cases oi <;> rfl
  · cases oi <;> rfl
  · cases oi <;> rfl
  · intro i hi
    unfold normalizeInfo
    cases hfn : i.fieldNodes <;> cases hfa : i.fieldASTs <;>
      simp_all
  · intro i
    unfold normalizeInfo
    split <;> simp

/-- Witness for `claim_C9_info_frame` at concrete inputs. -/
theorem claim_C9_witness :
    (fieldsMapRun 3 (some ⟨"q", some [], none, [], []⟩) none).2
      = (some ⟨"q", some [], none, [], []⟩).map normalizeInfo
    ∧ normalizeInfo ⟨"q", some [], none, [], []⟩ = ⟨"q", some [], none, [], []⟩ :=
  ⟨(claim_C9_info_frame 3 (some ⟨"q", some [], none, [], []⟩) none {}).1,
   (claim_C9_info_frame 3 (some ⟨"q", some [], none, [], []⟩) none {}).2.2.2.1
     ⟨"q", some [], none, [], []⟩ (Or.inl rfl)⟩

/-! ## Claim C5: merging of repeated field occurrences -/

theorem processNodeGo_plain_field
    (recur : List SelectionNode → List (String × MapResultKey) →
      TraverseOptions → SkipValue → Except Unit (List (String × MapResultKey)))
    (name : String) (oss : Option (List SelectionNode))
    (root : List (String × MapResultKey)) (opts : TraverseOptions)
    (skip : SkipValue)
    (hfrag : lookupKey opts.fragments name = none)
    (hskip : verifySkip name skip ≠ SkipValue.tru) :
    processNodeGo recur (.field name [] oss) root opts skip
      = if (SelectionNode.getNodes (.field name [] oss)).isEmpty then
          .ok (setKey root name (leafValue root name))
        else
          match recur (SelectionNode.getNodes (.field name [] oss))
              (childEntries root name) opts (verifySkip name skip) with
          | .error e => .error e
          | .ok es' => .ok (setKey root name (.node es')) := by
  cases hvs : verifySkip name skip with
  | tru => exact absurd hvs hskip
  | fls =>
    cases oss with
    | none =>
      simp [processNodeGo, SelectionNode.directives, verifyDirectives, hfrag, hvs,
        SelectionNode.getNodes, SelectionNode.selectionSet]
    | some xs =>
      cases xs with
      | nil =>
        simp [processNodeGo, SelectionNode.directives, verifyDirectives, hfrag, hvs,
          SelectionNode.getNodes, SelectionNode.selectionSet]
      | cons x xs' =>
        simp [processNodeGo, SelectionNode.directives, verifyDirectives, hfrag, hvs,
          SelectionNode.getNodes, SelectionNode.selectionSet]
  | tree es =>
    cases oss with
    | none =>
      simp [processNodeGo, SelectionNode.directives, verifyDirectives, hfrag, hvs,
        SelectionNode.getNodes, SelectionNode.selectionSet]
    | some xs =>
      cases xs with
      | nil =>
        simp [processNodeGo, SelectionNode.directives, verifyDirectives, hfrag, hvs,
          SelectionNode.getNodes, SelectionNode.selectionSet]
      | cons x xs' =>
        simp [processNodeGo, SelectionNode.directives, verifyDirectives, hfrag, hvs,
          SelectionNode.getNodes, SelectionNode.selectionSet]

theorem traverse_succ (fuel : Nat) (nodes : List SelectionNode)
    (root : List (String × MapResultKey)) (opts : TraverseOptions)
    (skip : SkipValue) :
    traverse (fuel + 1) nodes root opts skip
      = traverseGo (traverse fuel) nodes root opts skip := rfl

theorem traverseGo_cons
    (recur : List SelectionNode → List (String × MapResultKey) →
      TraverseOptions → SkipValue → Except Unit (List (String × MapResultKey)))
    (n : SelectionNode) (rest : List SelectionNode)
    (root : List (String × MapResultKey)) (opts : TraverseOptions)
    (skip : SkipValue) :
    traverseGo recur (n :: rest) root opts skip
      = match processNodeGo recur n root opts skip with
        | .error e => .error e
        | .ok root' => traverseGo recur rest root' opts skip := rfl

theorem traverse_zero (nodes : List SelectionNode)
    (root : List (String × MapResultKey)) (opts : TraverseOptions)
    (skip : SkipValue) :
    traverse 0 nodes root opts skip = .error () := rfl

theorem traverseGo_plain_field_step
    (recur : List SelectionNode → List (String × MapResultKey) →
      TraverseOptions → SkipValue → Except Unit (List (String × MapResultKey)))
    (name : String) (oss : Option (List SelectionNode)) (rest : List SelectionNode)
    (root : List (String × MapResultKey)) (opts : TraverseOptions)
    (skip : SkipValue)
    (hfrag : lookupKey opts.fragments name = none)
    (hskip : verifySkip name skip ≠ SkipValue.tru) :
    traverseGo recur (.field name [] oss :: rest) root opts skip
      = if (SelectionNode.getNodes (.field name [] oss)).isEmpty then
          traverseGo recur rest (setKey root name (leafValue root name)) opts skip
        else
          match recur (SelectionNode.getNodes (.field name [] oss))
              (childEntries root name) opts (verifySkip name skip) with
          | .error e => .error e
          | .ok es' => traverseGo recur rest (setKey root name (.node es')) opts skip := by
  rw [traverseGo_cons,
    processNodeGo_plain_field recur name oss root opts skip hfrag hskip]
  cases hc : (SelectionNode.getNodes (.field name [] oss)).isEmpty with
  | true =>
    rw [if_pos rfl]
    rfl
  | false =>
    rw [if_neg Bool.false_ne_true, if_neg Bool.false_ne_true]
    cases hr : recur (SelectionNode.getNodes (.field name [] oss))
        (childEntries root name) opts (verifySkip name skip) with
    | error e => rfl
    | ok es' => rfl

/-- C5: two occurrences of the same field name in one selection list merge
into a single tree entry.  The entry is the leaf sentinel iff both
occurrences lack child nodes; otherwise the entry is a mapping obtained by
traversing the first occurrence's children into a fresh tree and the
second occurrence's children into that result (the union by repeated
traversal) — in particular a sub-selection wins over a leaf-like
occurrence in either order of arrival. -/
theorem claim_C5_repeated_field_merge (fuel : Nat) (name : String)
    (ss1 ss2 : Option (List SelectionNode)) (rest : List SelectionNode)
    (opts : TraverseOptions) (skip : SkipValue)
    (hfrag : lookupKey opts.fragments name = none)
    (hskip : verifySkip name skip ≠ SkipValue.tru) :
    traverse (fuel + 1) (.field name [] ss1 :: .field name [] ss2 :: rest) [] opts skip
      = if (SelectionNode.getNodes (.field name [] ss1)).isEmpty
          && (SelectionNode.getNodes (.field name [] ss2)).isEmpty then
          traverse (fuel + 1) rest [(name, MapResultKey.leaf)] opts skip
        else
          match traverse fuel (SelectionNode.getNodes (.field name [] ss1)) [] opts
              (verifySkip name skip) with
          | .error e => .error e
          | .ok t1 =>
            match traverse fuel (SelectionNode.getNodes (.field name [] ss2)) t1 opts
                (verifySkip name skip) with
            | .error e => .error e
            | .ok t2 => traverse (fuel + 1) rest [(name, MapResultKey.node t2)] opts skip := by
  have hname : (name == name) = true := beq_self_eq_true name
  rw [traverse_succ,
    traverseGo_plain_field_step (traverse fuel) name ss1 _ [] opts skip hfrag hskip]
  cases hc1 : (SelectionNode.getNodes (.field name [] ss1)).isEmpty with
  | true =>
    rw [if_pos rfl]
    simp only [Bool.true_and]
    rw [show setKey [] name (leafValue [] name) = [(name, MapResultKey.leaf)] from rfl]
    rw [traverseGo_plain_field_step (traverse fuel) name ss2 rest
      [(name, MapResultKey.leaf)] opts skip hfrag hskip]
    cases hc2 : (SelectionNode.getNodes (.field name [] ss2)).isEmpty with
    | true =>
      rw [if_pos rfl]
      have hlv : leafValue [(name, MapResultKey.leaf)] name = MapResultKey.leaf := by
        simp [leafValue, lookupKey, hname]
      have hset2 : setKey [(name, MapResultKey.leaf)] name MapResultKey.leaf
          = [(name, MapResultKey.leaf)] := by
        simp [setKey, hname]
      rw [hlv, hset2, if_pos rfl, traverse_succ]
    | false =>
      rw [if_neg Bool.false_ne_true, if_neg Bool.false_ne_true]
      have hce : childEntries [(name, MapResultKey.leaf)] name = [] := by
        simp [childEntries, lookupKey, hname]
      rw [hce, List.isEmpty_iff.mp hc1]
      cases fuel with
      | zero =>
        rw [traverse_zero, traverse_zero]
      | succ f =>
        rw [show (traverse (f+1) ([] : List SelectionNode) [] opts
          (verifySkip name skip)) = .ok [] from rfl]
        cases htr2 : traverse (f+1) (SelectionNode.getNodes (.field name [] ss2)) []
            opts (verifySkip name skip) with
        | error e => simp only [htr2]
        | ok t2 =>
          have hset2 : setKey [(name, MapResultKey.leaf)] name (MapResultKey.node t2)
              = [(name, MapResultKey.node t2)] := by
            simp [setKey, hname]
          simp only [htr2, hset2, traverse_succ]
  | false =>
    simp only [Bool.false_and]
    rw [if_neg Bool.false_ne_true, if_neg Bool.false_ne_true]
    rw [show childEntries ([] : List (String × MapResultKey)) name = [] from rfl]
    cases htr1 : traverse fuel (SelectionNode.getNodes (.field name [] ss1)) [] opts
        (verifySkip name skip) with
    | error e => rfl
    | ok t1 =>
      simp only [show setKey [] name (MapResultKey.node t1) = [(name, MapResultKey.node t1)]
        from rfl]
      rw [traverseGo_plain_field_step (traverse fuel) name ss2 rest
        [(name, MapResultKey.node t1)] opts skip hfrag hskip]
      cases hc2 : (SelectionNode.getNodes (.field name [] ss2)).isEmpty with
      | true =>
        rw [if_pos rfl]
        have hlv : leafValue [(name, MapResultKey.node t1)] name = MapResultKey.node t1 := by
          simp [leafValue, lookupKey, hname]
        have hset2 : setKey [(name, MapResultKey.node t1)] name (MapResultKey.node t1)
            = [(name, MapResultKey.node t1)] := by
          simp [setKey, hname]
        rw [hlv, hset2, List.isEmpty_iff.mp hc2]
        cases fuel with
        | zero =>
          rw [traverse_zero] at htr1
          exact Except.noConfusion htr1
        | succ f =>
          simp only [show (traverse (f+1) ([] : List SelectionNode) t1 opts
            (verifySkip name skip)) = Except.ok t1 from rfl, traverse_succ]
      | false =>
        rw [if_neg Bool.false_ne_true]
        have hce : childEntries [(name, MapResultKey.node t1)] name = t1 := by
          simp [childEntries, lookupKey, hname]
        rw [hce]
        cases htr2 : traverse fuel (SelectionNode.getNodes (.field name [] ss2)) t1 opts
            (verifySkip name skip) with
        | error e => rfl
        | ok t2 =>
          have hset2 : setKey [(name, MapResultKey.node t1)] name (MapResultKey.node t2)
              = [(name, MapResultKey.node t2)] := by
            simp [setKey, hname]
          simp only [hset2, traverse_succ]

/-- Witness for `claim_C5_repeated_field_merge`: a leaf-like occurrence of
`a` followed by an occurrence carrying `{ c }` ends up a single mapping
entry. -/
theorem claim_C5_witness :
    traverse 3 [.field "a" [] none, .field "a" [] (some [.field "c" [] none])]
      [] ⟨[], [], false⟩ .fls = .ok [("a", .node [("c", .leaf)])] := by
  rw [claim_C5_repeated_field_merge 2 "a" none (some [.field "c" [] none]) []
    ⟨[], [], false⟩ .fls rfl (fun h => SkipValue.noConfusion h)]
  rfl

end GFL

namespace GFL

/-! ## Claim C2: machinery — association-list lemmas -/

theorem lookupKey_setKey_self {α : Type} (es : List (String × α)) (k : String) (v : α) :
    lookupKey (setKey es k v) k = some v := by
  induction es with
  | nil => simp [setKey, lookupKey]
  | cons kv rest ih =>
    cases kv with
    | mk k0 v0 =>
      by_cases h : (k0 == k) = true
      · simp [setKey, lookupKey, h]
      · simp only [setKey, lookupKey, h, Bool.false_eq_true, if_false]
        exact ih

theorem lookupKey_setKey_other {α : Type} (es : List (String × α)) (k k' : String)
    (v : α) (h : k' ≠ k) : lookupKey (setKey es k v) k' = lookupKey es k' := by
  have hne : (k == k') = false := by
    simp only [beq_eq_false_iff_ne, ne_eq]
    exact fun e => h e.symm
  induction es with
  | nil => simp [setKey, lookupKey, hne]
  | cons kv rest ih =>
    cases kv with
    | mk k0 v0 =>
      by_cases h0 : (k0 == k) = true
      · have h1 : (k0 == k') = false := by
          simp only [beq_eq_false_iff_ne, ne_eq]
          intro e
          exact h (Eq.trans e.symm (beq_iff_eq.mp h0))
        simp [setKey, lookupKey, h0, h1]
      · simp only [setKey, lookupKey, h0, Bool.false_eq_true, if_false]
        by_cases h1 : (k0 == k') = true
        · simp [h1]
        · simp only [h1, Bool.false_eq_true, if_false]
          exact ih

theorem mem_of_lookupKey {α : Type} (es : List (String × α)) (k : String) (v : α)
    (h : lookupKey es k = some v) : (k, v) ∈ es := by
  induction es with
  | nil => exact absurd h (by simp [lookupKey])
  | cons kv rest ih =>
    cases kv with
    | mk k0 v0 =>
      simp only [lookupKey] at h
      by_cases h0 : (k0 == k) = true
      · rw [if_pos h0] at h
        rw [beq_iff_eq.mp h0, Option.some.inj h]
        exact List.mem_cons_self _ _
      · rw [if_neg (by simp_all)] at h
        exact List.mem_cons_of_mem _ (ih h)

theorem lookupKey_isSome_of_mem {α : Type} (es : List (String × α)) (k : String)
    (v : α) (h : (k, v) ∈ es) : (lookupKey es k).isSome = true := by
  induction es with
  | nil => simp at h
  | cons kv rest ih =>
    cases kv with
    | mk k0 v0 =>
      simp only [lookupKey]
      by_cases h0 : (k0 == k) = true
      · rw [if_pos h0]; rfl
      · rw [if_neg (by simp_all)]
        rcases List.mem_cons.mp h with heq | hm
        · refine absurd (congrArg Prod.fst heq).symm ?_
          simp only [beq_iff_eq] at h0
          exact h0
        · exact ih hm

theorem lookupKey_mem_keys {α : Type} (es : List (String × α)) (k : String)
    (h : (lookupKey es k).isSome = true) : k ∈ es.map Prod.fst := by
  induction es with
  | nil => simp [lookupKey] at h
  | cons kv rest ih =>
    cases kv with
    | mk k0 v0 =>
      simp only [lookupKey] at h
      by_cases h0 : (k0 == k) = true
      · simp [beq_iff_eq.mp h0]
      · rw [if_neg (by simp_all)] at h
        simp only [List.map_cons, List.mem_cons]
        exact Or.inr (ih h)

theorem lookupKey_isSome_of_mem_keys {α : Type} (es : List (String × α)) (k : String)
    (h : k ∈ es.map Prod.fst) : (lookupKey es k).isSome = true := by
  rw [List.mem_map] at h
  obtain ⟨kv, hm, hk⟩ := h
  cases kv with
  | mk k0 v0 =>
    subst hk
    exact lookupKey_isSome_of_mem es _ v0 hm

theorem lookupKey_of_mem_nodup {α : Type} (es : List (String × α))
    (hn : (es.map Prod.fst).Nodup) (k : String) (v : α) (h : (k, v) ∈ es) :
    lookupKey es k = some v := by
  induction es with
  | nil => simp at h
  | cons kv rest ih =>
    cases kv with
    | mk k0 v0 =>
      rw [List.map_cons, List.nodup_cons] at hn
      rcases List.mem_cons.mp h with heq | hm
      · cases heq
        simp [lookupKey]
      · simp only [lookupKey]
        have hk : (k0 == k) = false := by
          simp only [beq_eq_false_iff_ne, ne_eq]
          intro he
          exact hn.1 (he ▸ (List.mem_map.mpr ⟨(k, v), hm, rfl⟩))
        rw [if_neg (by simp [hk])]
        exact ih hn.2 hm

/-! ## Claim C2: machinery — wildcard-free skip trees and their extension order -/

/-- Size bound used for well-founded recursion through nested skip trees. -/
theorem sizeOf_snd_lt_tree {kv : String × SkipValue} {es : List (String × SkipValue)}
    (h : kv ∈ es) : sizeOf kv.2 < sizeOf (SkipValue.tree es) := by
  have h2 := List.sizeOf_lt_of_mem h
  obtain ⟨a, b⟩ := kv
  simp only [Prod.mk.sizeOf_spec] at h2
  simp only [SkipValue.tree.sizeOf_spec]
  show sizeOf b < 1 + sizeOf es
  omega

/-- Wildcard-freeness of a skip value: no key at any level contains the
character `*` (the wildcard scan of `verifySkip` then never fires). -/
def NoWild : SkipValue → Prop
  | .tru => True
  | .fls => True
  | .tree es => ∀ kv ∈ es, strHasChar kv.1 '*' = false ∧ NoWild kv.2
termination_by v => sizeOf v
decreasing_by
  rename_i h
  exact sizeOf_snd_lt_tree h

/-- Key-uniqueness of a skip value at every level. -/
def UniqSkip : SkipValue → Prop
  | .tru => True
  | .fls => True
  | .tree es => (es.map Prod.fst).Nodup ∧ ∀ kv ∈ es, UniqSkip kv.2
termination_by v => sizeOf v
decreasing_by
  rename_i h
  exact sizeOf_snd_lt_tree h

/-- `SkipExt s t` means the skip value `t` prunes at least as much as `s`:
every truthy entry of `s` is matched in `t` by an entry pruning at least as
much (where `true`, the exclude-entirely marker, dominates everything);
`false` entries impose nothing. -/
def SkipExt : SkipValue → SkipValue → Prop
  | .fls, _ => True
  | .tru, t => t = .tru
  | .tree _, .tru => True
  | .tree _, .fls => False
  | .tree es, .tree es' => ∀ kv ∈ es, kv.2 = .fls ∨
      ∃ v', lookupKey es' kv.1 = some v' ∧ SkipExt kv.2 v'
termination_by s _ => sizeOf s
decreasing_by
  rename_i h
  exact sizeOf_snd_lt_tree h

theorem skipExt_refl : ∀ (v : SkipValue), UniqSkip v → SkipExt v v
  | .tru, _ => by simp [SkipExt]
  | .fls, _ => by simp [SkipExt]
  | .tree es, h => by
    simp only [UniqSkip] at h
    simp only [SkipExt]
    intro kv hm
    exact Or.inr ⟨kv.2, lookupKey_of_mem_nodup es h.1 kv.1 kv.2 hm,
      skipExt_refl kv.2 (h.2 kv hm)⟩
termination_by v => sizeOf v
decreasing_by
  exact sizeOf_snd_lt_tree hm


/-! ## Claim C2: machinery — `verifySkip` on wildcard-free skip trees -/

theorem verifySkipScan_no_wild (node : String) (es : List (String × SkipValue))
    (acc : SkipValue) (h : ∀ kv ∈ es, strHasChar kv.1 '*' = false) :
    verifySkipScan node es acc = acc := by
  induction es generalizing acc with
  | nil => rfl
  | cons kv rest ih =>
    cases kv with
    | mk k v =>
      have hk : strHasChar k '*' = false := h (k, v) (List.mem_cons_self _ _)
      simp only [verifySkipScan, hk, Bool.false_and, Bool.false_eq_true, if_false]
      exact ih acc (fun kv hm => h kv (List.mem_cons_of_mem _ hm))

theorem verifySkip_no_wild (node : String) (es : List (String × SkipValue))
    (h : ∀ kv ∈ es, strHasChar kv.1 '*' = false) :
    verifySkip node (.tree es) =
      (match lookupKey es node with
       | some v => if v.truthy then v else .fls
       | none => .fls) := by
  simp only [verifySkip]
  cases hlk : lookupKey es node with
  | none => exact verifySkipScan_no_wild node es .fls h
  | some v =>
    cases hv : v.truthy with
    | true => simp [hv]
    | false => simp [hv, verifySkipScan_no_wild node es .fls h]

theorem noWild_keys {es : List (String × SkipValue)} (h : NoWild (.tree es)) :
    ∀ kv ∈ es, strHasChar kv.1 '*' = false := by
  simp only [NoWild] at h
  exact fun kv hm => (h kv hm).1

theorem noWild_entry {es : List (String × SkipValue)} (h : NoWild (.tree es))
    {k : String} {v : SkipValue} (hlk : lookupKey es k = some v) : NoWild v := by
  simp only [NoWild] at h
  exact (h (k, v) (mem_of_lookupKey es k v hlk)).2

theorem skipExt_entry {es es' : List (String × SkipValue)}
    (hext : SkipExt (.tree es) (.tree es')) {k : String} {v : SkipValue}
    (hlk : lookupKey es k = some v) (hv : v ≠ .fls) :
    ∃ v', lookupKey es' k = some v' ∧ SkipExt v v' := by
  simp only [SkipExt] at hext
  rcases hext (k, v) (mem_of_lookupKey es k v hlk) with hfl | hex
  · exact absurd hfl hv
  · exact hex

theorem verifySkip_tru_mono (node : String) (s s' : SkipValue) (hnw : NoWild s)
    (hext : SkipExt s s') (hne' : s' ≠ .tru)
    (h : verifySkip node s = .tru) : verifySkip node s' = .tru := by
  cases s with
  | fls => exact absurd h (by simp [verifySkip])
  | tru => exact absurd h (by simp [verifySkip])
  | tree es =>
    cases s' with
    | tru => exact absurd rfl hne'
    | fls => exact absurd hext (by simp [SkipExt])
    | tree es' =>
      rw [verifySkip_no_wild node es (noWild_keys hnw)] at h
      cases hlk : lookupKey es node with
      | none => simp only [hlk] at h; exact absurd h (by simp)
      | some v =>
        simp only [hlk] at h
        cases hv : v.truthy with
        | false => rw [if_neg (by simp [hv])] at h; exact absurd h (by simp)
        | true =>
          rw [if_pos hv] at h
          subst h
          obtain ⟨v', hlk', hext'⟩ := skipExt_entry hext hlk
            (fun e => SkipValue.noConfusion e)
          have hv' : v' = .tru := by simpa [SkipExt] using hext'
          subst hv'
          simp [verifySkip, hlk', SkipValue.truthy]

theorem verifySkip_scope_mono (node : String) (s s' : SkipValue)
    (hnw : NoWild s) (hext : SkipExt s s') (hne' : s' ≠ .tru)
    (hnt : verifySkip node s' ≠ .tru) :
    SkipExt (verifySkip node s) (verifySkip node s') := by
  cases s with
  | fls => simp [verifySkip, SkipExt]
  | tru => simp [verifySkip, SkipExt]
  | tree es =>
    cases s' with
    | tru => exact absurd rfl hne'
    | fls => exact absurd hext (by simp [SkipExt])
    | tree es' =>
      rw [verifySkip_no_wild node es (noWild_keys hnw)]
      cases hlk : lookupKey es node with
      | none => simp [hlk, SkipExt]
      | some v =>
        cases v with
        | fls => simp [hlk, SkipValue.truthy, SkipExt]
        | tru =>
          have : verifySkip node (.tree es) = .tru := by
            rw [verifySkip_no_wild node es (noWild_keys hnw), hlk]
            simp [SkipValue.truthy]
          exact absurd (verifySkip_tru_mono node _ _ hnw hext hne' this) hnt
        | tree m =>
          simp only [hlk, SkipValue.truthy, if_pos rfl]
          obtain ⟨v', hlk', hext'⟩ := skipExt_entry hext hlk
            (fun e => SkipValue.noConfusion e)
          cases v' with
          | fls => exact absurd hext' (by simp [SkipExt])
          | tru =>
            have : verifySkip node (.tree es') = .tru := by
              simp [verifySkip, hlk', SkipValue.truthy]
            exact absurd this hnt
          | tree m' =>
            have : verifySkip node (.tree es') = .tree m' := by
              simp [verifySkip, hlk', SkipValue.truthy]
            rw [this]
            exact hext'

theorem noWild_verifySkip (node : String) (s : SkipValue) (h : NoWild s) :
    NoWild (verifySkip node s) := by
  cases s with
  | fls => simp [verifySkip, NoWild]
  | tru => simp [verifySkip, NoWild]
  | tree es =>
    rw [verifySkip_no_wild node es (noWild_keys h)]
    cases hlk : lookupKey es node with
    | none => simp [hlk, NoWild]
    | some v =>
      simp only [hlk]
      cases hv : v.truthy with
      | false => simp [hv, NoWild]
      | true =>
        rw [if_pos rfl]
        exact noWild_entry h hlk

theorem verifySkip_ne_tru_shape (node : String) (s : SkipValue)
    (h : verifySkip node s ≠ .tru) :
    verifySkip node s = .fls ∨ ∃ m, verifySkip node s = .tree m := by
  cases hv : verifySkip node s with
  | tru => exact absurd hv h
  | fls => exact Or.inl rfl
  | tree m => exact Or.inr ⟨m, rfl⟩


/-! ## Claim C2: machinery — building the skip tree pattern by pattern -/

theorem truthy_eq_false_iff (v : SkipValue) : v.truthy = false ↔ v = .fls := by
  cases v <;> simp [SkipValue.truthy]

theorem setKey_keys_mem {α : Type} (es : List (String × α)) (k x : String) (v : α)
    (h : x ∈ (setKey es k v).map Prod.fst) : x ∈ es.map Prod.fst ∨ x = k := by
  induction es with
  | nil => simp [setKey] at h; exact Or.inr h
  | cons kv rest ih =>
    cases kv with
    | mk k0 v0 =>
      by_cases h0 : (k0 == k) = true
      · rw [show setKey ((k0, v0) :: rest) k v = (k0, v) :: rest from by
          simp [setKey, h0]] at h
        simp only [List.map_cons, List.mem_cons] at h ⊢
        exact h.elim (fun e => Or.inl (Or.inl e)) (fun hm => Or.inl (Or.inr hm))
      · rw [show setKey ((k0, v0) :: rest) k v = (k0, v0) :: setKey rest k v from by
          simp [setKey, h0]] at h
        simp only [List.map_cons, List.mem_cons] at h ⊢
        rcases h with e | hm
        · exact Or.inl (Or.inl e)
        · rcases ih hm with hm' | e
          · exact Or.inl (Or.inr hm')
          · exact Or.inr e

theorem setKey_mem {α : Type} (es : List (String × α)) (k : String) (v : α)
    (kv' : String × α) (h : kv' ∈ setKey es k v) : kv' ∈ es ∨ kv' = (k, v) := by
  induction es with
  | nil => simp [setKey] at h; exact Or.inr h
  | cons kv rest ih =>
    cases kv with
    | mk k0 v0 =>
      by_cases h0 : (k0 == k) = true
      · rw [show setKey ((k0, v0) :: rest) k v = (k0, v) :: rest from by
          simp [setKey, h0]] at h
        rcases List.mem_cons.mp h with e | hm
        · exact Or.inr (by rw [e, beq_iff_eq.mp h0])
        · exact Or.inl (List.mem_cons_of_mem _ hm)
      · rw [show setKey ((k0, v0) :: rest) k v = (k0, v0) :: setKey rest k v from by
          simp [setKey, h0]] at h
        rcases List.mem_cons.mp h with e | hm
        · exact Or.inl (e ▸ List.mem_cons_self _ _)
        · rcases ih hm with hm' | e
          · exact Or.inl (List.mem_cons_of_mem _ hm')
          · exact Or.inr e

theorem setKey_keys_nodup {α : Type} (es : List (String × α)) (k : String) (v : α)
    (h : (es.map Prod.fst).Nodup) : ((setKey es k v).map Prod.fst).Nodup := by
  induction es with
  | nil => simp [setKey]
  | cons kv rest ih =>
    cases kv with
    | mk k0 v0 =>
      rw [List.map_cons, List.nodup_cons] at h
      by_cases h0 : (k0 == k) = true
      · rw [show setKey ((k0, v0) :: rest) k v = (k0, v) :: rest from by
          simp [setKey, h0]]
        rw [List.map_cons, List.nodup_cons]
        exact h
      · rw [show setKey ((k0, v0) :: rest) k v = (k0, v0) :: setKey rest k v from by
          simp [setKey, h0]]
        rw [List.map_cons, List.nodup_cons]
        refine ⟨fun hm => ?_, ih h.2⟩
        rcases setKey_keys_mem rest k k0 v hm with hm' | e
        · exact h.1 hm'
        · simp [e] at h0
  
theorem uniq_setKey {es : List (String × SkipValue)} {k : String} {v : SkipValue}
    (hu : UniqSkip (.tree es)) (hv : UniqSkip v) :
    UniqSkip (.tree (setKey es k v)) := by
  simp only [UniqSkip] at hu ⊢
  refine ⟨setKey_keys_nodup es k v hu.1, fun kv' hm => ?_⟩
  rcases setKey_mem es k v kv' hm with hm' | e
  · exact hu.2 kv' hm'
  · rw [e]; exact hv

theorem noWild_setKey {es : List (String × SkipValue)} {k : String} {v : SkipValue}
    (hn : NoWild (.tree es)) (hk : strHasChar k '*' = false) (hv : NoWild v) :
    NoWild (.tree (setKey es k v)) := by
  simp only [NoWild] at hn ⊢
  intro kv' hm
  rcases setKey_mem es k v kv' hm with hm' | e
  · exact hn kv' hm'
  · rw [e]; exact ⟨hk, hv⟩

theorem skipCreate_props : ∀ (segs : List String) (v : SkipValue),
    skipCreate segs = .ok v → (∀ seg ∈ segs, strHasChar seg '*' = false) →
    NoWild v ∧ UniqSkip v := by
  intro segs
  induction segs with
  | nil =>
    intro v h _
    injection h with h
    rw [← h]
    exact ⟨by simp [NoWild], by simp [UniqSkip]⟩
  | cons seg rest ih =>
    intro v h hw
    have hs : ¬seg = "*" := by
      intro e
      have := hw seg (List.mem_cons_self _ _)
      rw [e] at this
      simp [strHasChar] at this
    simp only [skipCreate, hs] at h
    cases hc : skipCreate rest with
    | error e => rw [hc] at h; exact absurd h (by simp)
    | ok child =>
      rw [hc] at h
      injection h with h
      rw [← h]
      have hchild := ih child hc (fun s hm => hw s (List.mem_cons_of_mem _ hm))
      refine ⟨?_, ?_⟩
      · exact noWild_setKey (by simp [NoWild]) (hw seg (List.mem_cons_self _ _)) hchild.1
      · exact uniq_setKey (by simp [UniqSkip]) hchild.2


theorem mem_nodup_val {es : List (String × SkipValue)}
    (hn : (es.map Prod.fst).Nodup) {k : String} {v v0 : SkipValue}
    (hm : (k, v0) ∈ es) (hlk : lookupKey es k = some v) : v0 = v := by
  have := lookupKey_of_mem_nodup es hn k v0 hm
  rw [this] at hlk
  exact Option.some.inj hlk

theorem uniq_entry {es : List (String × SkipValue)} (hu : UniqSkip (.tree es))
    {kv : String × SkipValue} (hm : kv ∈ es) : UniqSkip kv.2 := by
  simp only [UniqSkip] at hu
  exact hu.2 kv hm

theorem skipInsert_props : ∀ (segs : List String) (v v' : SkipValue),
    skipInsert v segs = .ok v' → (∀ seg ∈ segs, strHasChar seg '*' = false) →
    NoWild v → UniqSkip v → NoWild v' ∧ UniqSkip v' := by
  intro segs
  induction segs with
  | nil =>
    intro v v' h _ hn hu
    simp only [skipInsert] at h
    injection h with h
    rw [← h]
    exact ⟨hn, hu⟩
  | cons prop rest ih =>
    intro v v' h hw hn hu
    cases v with
    | tru => exact absurd h (by simp [skipInsert])
    | fls => exact absurd h (by simp [skipInsert])
    | tree es =>
      have hwrest : ∀ seg ∈ rest, strHasChar seg '*' = false :=
        fun s hm => hw s (List.mem_cons_of_mem _ hm)
      have hwprop : strHasChar prop '*' = false := hw prop (List.mem_cons_self _ _)
      simp only [skipInsert] at h
      cases hlk : lookupKey es prop with
      | some child =>
        simp only [hlk] at h
        cases ht : child.truthy with
        | true =>
          rw [if_pos ht] at h
          cases hi : skipInsert child rest with
          | error e => rw [hi] at h; exact absurd h (by simp)
          | ok child' =>
            rw [hi] at h
            injection h with h
            rw [← h]
            have hc := ih child child' hi hwrest
              (noWild_entry hn hlk) (uniq_entry hu (mem_of_lookupKey es prop child hlk))
            exact ⟨noWild_setKey hn hwprop hc.1, uniq_setKey hu hc.2⟩
        | false =>
          rw [if_neg (by simp [ht])] at h
          cases hc : skipCreate rest with
          | error e => rw [hc] at h; exact absurd h (by simp)
          | ok child' =>
            rw [hc] at h
            injection h with h
            rw [← h]
            have hcp := skipCreate_props rest child' hc hwrest
            exact ⟨noWild_setKey hn hwprop hcp.1, uniq_setKey hu hcp.2⟩
      | none =>
        simp only [hlk] at h
        cases hc : skipCreate rest with
        | error e => rw [hc] at h; exact absurd h (by simp)
        | ok child' =>
          rw [hc] at h
          injection h with h
          rw [← h]
          have hcp := skipCreate_props rest child' hc hwrest
          exact ⟨noWild_setKey hn hwprop hcp.1, uniq_setKey hu hcp.2⟩

theorem skipExt_setKey {es : List (String × SkipValue)} {prop : String}
    {child child' : SkipValue} (hu : UniqSkip (.tree es))
    (hlk : lookupKey es prop = some child) (hext : SkipExt child child') :
    SkipExt (.tree es) (.tree (setKey es prop child')) := by
  have hn : (es.map Prod.fst).Nodup := by
    simp only [UniqSkip] at hu; exact hu.1
  simp only [SkipExt]
  intro kv hm
  by_cases hk : kv.1 = prop
  · have hval : kv.2 = child := by
      have : (kv.1, kv.2) ∈ es := by simpa using hm
      rw [hk] at this
      exact mem_nodup_val hn this hlk
    refine Or.inr ⟨child', ?_, hval ▸ hext⟩
    rw [hk]
    exact lookupKey_setKey_self es prop child'
  · refine Or.inr ⟨kv.2, ?_, skipExt_refl kv.2 (uniq_entry hu hm)⟩
    rw [lookupKey_setKey_other es prop kv.1 child' hk]
    exact lookupKey_of_mem_nodup es hn kv.1 kv.2 (by simpa using hm)

theorem skipExt_setKey_fls {es : List (String × SkipValue)} {prop : String}
    {child' : SkipValue} (hu : UniqSkip (.tree es))
    (hfls : lookupKey es prop = some .fls ∨ lookupKey es prop = none) :
    SkipExt (.tree es) (.tree (setKey es prop child')) := by
  have hn : (es.map Prod.fst).Nodup := by
    simp only [UniqSkip] at hu; exact hu.1
  simp only [SkipExt]
  intro kv hm
  by_cases hk : kv.1 = prop
  · rcases hfls with hfl | hnone
    · exact Or.inl (by
        have : (kv.1, kv.2) ∈ es := by simpa using hm
        rw [hk] at this
        exact mem_nodup_val hn this hfl)
    · exfalso
      have : (lookupKey es prop).isSome = true := by
        rw [← hk]
        exact lookupKey_isSome_of_mem es kv.1 kv.2 (by simpa using hm)
      rw [hnone] at this
      exact absurd this (by simp)
  · refine Or.inr ⟨kv.2, ?_, skipExt_refl kv.2 (uniq_entry hu hm)⟩
    rw [lookupKey_setKey_other es prop kv.1 child' hk]
    exact lookupKey_of_mem_nodup es hn kv.1 kv.2 (by simpa using hm)

theorem skipInsert_ext : ∀ (segs : List String) (v v' : SkipValue),
    skipInsert v segs = .ok v' → UniqSkip v → SkipExt v v' := by
  intro segs
  induction segs with
  | nil =>
    intro v v' h hu
    simp only [skipInsert] at h
    injection h with h
    rw [← h]
    exact skipExt_refl v hu
  | cons prop rest ih =>
    intro v v' h hu
    cases v with
    | tru => exact absurd h (by simp [skipInsert])
    | fls => exact absurd h (by simp [skipInsert])
    | tree es =>
      simp only [skipInsert] at h
      cases hlk : lookupKey es prop with
      | some child =>
        simp only [hlk] at h
        cases ht : child.truthy with
        | true =>
          rw [if_pos ht] at h
          cases hi : skipInsert child rest with
          | error e => rw [hi] at h; exact absurd h (by simp)
          | ok child' =>
            rw [hi] at h
            injection h with h
            rw [← h]
            exact skipExt_setKey hu hlk
              (ih child child' hi (uniq_entry hu (mem_of_lookupKey es prop child hlk)))
        | false =>
          rw [if_neg (by simp [ht])] at h
          cases hc : skipCreate rest with
          | error e => rw [hc] at h; exact absurd h (by simp)
          | ok child' =>
            rw [hc] at h
            injection h with h
            rw [← h]
            exact skipExt_setKey_fls hu
              (Or.inl (by rw [hlk, (truthy_eq_false_iff child).mp ht]))
      | none =>
        simp only [hlk] at h
        cases hc : skipCreate rest with
        | error e => rw [hc] at h; exact absurd h (by simp)
        | ok child' =>
          rw [hc] at h
          injection h with h
          rw [← h]
          exact skipExt_setKey_fls hu (Or.inr hlk)

theorem skipInsert_tree : ∀ (segs : List String) (es : List (String × SkipValue))
    (v' : SkipValue), skipInsert (.tree es) segs = .ok v' →
    ∃ es', v' = .tree es' := by
  intro segs es v' h
  cases segs with
  | nil =>
    injection h with h
    exact ⟨es, h.symm⟩
  | cons prop rest =>
    simp only [skipInsert] at h
    cases hlk : lookupKey es prop with
    | some child =>
      simp only [hlk] at h
      cases ht : child.truthy with
      | true =>
        rw [if_pos ht] at h
        cases hi : skipInsert child rest with
        | error e => rw [hi] at h; exact absurd h (by simp)
        | ok child' =>
          rw [hi] at h
          injection h with h
          exact ⟨_, h.symm⟩
      | false =>
        rw [if_neg (by simp [ht])] at h
        cases hc : skipCreate rest with
        | error e => rw [hc] at h; exact absurd h (by simp)
        | ok child' =>
          rw [hc] at h
          injection h with h
          exact ⟨_, h.symm⟩
    | none =>
      simp only [hlk] at h
      cases hc : skipCreate rest with
      | error e => rw [hc] at h; exact absurd h (by simp)
      | ok child' =>
        rw [hc] at h
        injection h with h
        exact ⟨_, h.symm⟩


theorem skipFold_append : ∀ (l : List String) (p : String) (init : SkipValue),
    (l ++ [p]).foldlM (fun t q => skipInsert t (jsSplit q '.')) init =
      (match l.foldlM (fun t q => skipInsert t (jsSplit q '.')) init with
       | .error e => .error e
       | .ok t => skipInsert t (jsSplit p '.')) := by
  intro l
  induction l with
  | nil =>
    intro p init
    show (skipInsert init (jsSplit p '.') >>= fun b => pure b) =
      skipInsert init (jsSplit p '.')
    cases hres : skipInsert init (jsSplit p '.') with
    | error e => rfl
    | ok t => rfl
  | cons q l ih =>
    intro p init
    cases hres : skipInsert init (jsSplit q '.') with
    | error e => simp only [List.cons_append, List.foldlM, hres]; rfl
    | ok b =>
      simp only [List.cons_append, List.foldlM, hres]
      exact ih p b

theorem skipFold_props : ∀ (l : List String) (init st : SkipValue),
    l.foldlM (fun t q => skipInsert t (jsSplit q '.')) init = .ok st →
    (∀ p ∈ l, ∀ seg ∈ jsSplit p '.', strHasChar seg '*' = false) →
    NoWild init → UniqSkip init → NoWild st ∧ UniqSkip st := by
  intro l
  induction l with
  | nil =>
    intro init st h _ hn hu
    simp only [List.foldlM] at h
    injection h with h
    rw [← h]
    exact ⟨hn, hu⟩
  | cons q l ih =>
    intro init st h hw hn hu
    simp only [List.foldlM] at h
    cases hres : skipInsert init (jsSplit q '.') with
    | error e =>
      rw [hres] at h
      exact Except.noConfusion (show (Except.error e : Except Unit SkipValue) = .ok st from h)
    | ok b =>
      rw [hres] at h
      have hfold : l.foldlM (fun t q => skipInsert t (jsSplit q '.')) b = .ok st := h
      have hbp := skipInsert_props (jsSplit q '.') init b hres
        (hw q (List.mem_cons_self _ _)) hn hu
      exact ih b st hfold (fun p hm => hw p (List.mem_cons_of_mem _ hm)) hbp.1 hbp.2

theorem skipFold_tree : ∀ (l : List String) (es0 : List (String × SkipValue))
    (st : SkipValue),
    l.foldlM (fun t q => skipInsert t (jsSplit q '.')) (.tree es0) = .ok st →
    ∃ es, st = .tree es := by
  intro l
  induction l with
  | nil =>
    intro es0 st h
    simp only [List.foldlM] at h
    injection h with h
    exact ⟨es0, h.symm⟩
  | cons q l ih =>
    intro es0 st h
    simp only [List.foldlM] at h
    cases hres : skipInsert (.tree es0) (jsSplit q '.') with
    | error e =>
      rw [hres] at h
      exact Except.noConfusion (show (Except.error e : Except Unit SkipValue) = .ok st from h)
    | ok b =>
      rw [hres] at h
      have hfold : l.foldlM (fun t q => skipInsert t (jsSplit q '.')) b = .ok st := h
      obtain ⟨es1, hbt⟩ := skipInsert_tree (jsSplit q '.') es0 b hres
      rw [hbt] at hfold
      exact ih es1 st hfold

theorem skipTree_props (l : List String) (st : SkipValue)
    (h : skipTree l = .ok st)
    (hw : ∀ p ∈ l, ∀ seg ∈ jsSplit p '.', strHasChar seg '*' = false) :
    NoWild st ∧ UniqSkip st :=
  skipFold_props l (.tree []) st h hw (by simp [NoWild]) (by simp [UniqSkip])

theorem skipTree_shape (l : List String) (st : SkipValue)
    (h : skipTree l = .ok st) : ∃ es, st = .tree es :=
  skipFold_tree l [] st h

theorem skipTree_ext (l : List String) (p : String) (st st' : SkipValue)
    (h : skipTree l = .ok st) (h' : skipTree (l ++ [p]) = .ok st')
    (hw : ∀ q ∈ l, ∀ seg ∈ jsSplit q '.', strHasChar seg '*' = false) :
    SkipExt st st' := by
  have hu := (skipTree_props l st h hw).2
  have happ := skipFold_append l p (.tree [])
  rw [skipTree] at h h'
  rw [h'] at happ
  simp only [h] at happ
  exact skipInsert_ext (jsSplit p '.') st st' happ.symm hu


/-! ## Claim C2: machinery — pruning along a path, and the run relation -/

/-- Whether the skip scope prunes the field at the given dot path: fold
`verifySkip` along the segments; an exclude-entirely mark (`true`) on the
way prunes the whole subtree. -/
def prunedB : SkipValue → List String → Bool
  | _, [] => false
  | s, k :: p =>
    match verifySkip k s with
    | .tru => true
    | .fls => prunedB .fls p
    | .tree m => prunedB (.tree m) p

theorem prunedB_cons_of_tru {k : String} {s : SkipValue}
    (h : verifySkip k s = .tru) (p : List String) : prunedB s (k :: p) = true := by
  simp [prunedB, h]

theorem prunedB_cons_of_ne {k : String} {s : SkipValue}
    (h : verifySkip k s ≠ .tru) (p : List String) :
    prunedB s (k :: p) = prunedB (verifySkip k s) p := by
  cases hv : verifySkip k s with
  | tru => exact absurd hv h
  | fls => simp [prunedB, hv]
  | tree m => simp [prunedB, hv]

theorem valAt_nil (r : List (String × MapResultKey)) :
    valAt r [] = some (.node r) := rfl

theorem valAt_cons (r : List (String × MapResultKey)) (k : String) (q : List String) :
    valAt r (k :: q) =
      (match lookupKey r k with
       | some (.node es) => valAt es q
       | some .leaf => if q.isEmpty then some .leaf else none
       | none => none) := rfl

theorem valAt_cons_node {r : List (String × MapResultKey)} {k : String}
    {es : List (String × MapResultKey)} (h : lookupKey r k = some (.node es))
    (q : List String) : valAt r (k :: q) = valAt es q := by
  rw [valAt_cons, h]

theorem valAt_singleton (r : List (String × MapResultKey)) (k : String) :
    valAt r [k] = lookupKey r k := by
  rw [valAt_cons]
  cases hlk : lookupKey r k with
  | none => rfl
  | some v => cases v <;> rfl

theorem valAt_empty_cons (k : String) (q : List String) :
    valAt [] (k :: q) = none := by
  rw [valAt_cons]
  rfl

theorem valAt_cons_some_shape {r : List (String × MapResultKey)} {k : String}
    {q : List String} {v : MapResultKey} (hq : q ≠ [])
    (h : valAt r (k :: q) = some v) :
    ∃ es, lookupKey r k = some (.node es) ∧ valAt es q = some v := by
  rw [valAt_cons] at h
  cases hlk : lookupKey r k with
  | none => rw [hlk] at h; exact absurd h (by simp)
  | some w =>
    cases w with
    | leaf =>
      rw [hlk] at h
      rw [if_neg (by simp [hq])] at h
      exact absurd h (by simp)
    | node es =>
      rw [hlk] at h
      exact ⟨es, rfl, h⟩

theorem valAt_setKey_self (r : List (String × MapResultKey)) (k : String)
    (X : MapResultKey) (q : List String) :
    valAt (setKey r k X) (k :: q) =
      (match X with
       | .node es => valAt es q
       | .leaf => if q.isEmpty then some .leaf else none) := by
  rw [valAt_cons, lookupKey_setKey_self]
  cases X <;> rfl

theorem valAt_setKey_other (r : List (String × MapResultKey)) (k k' : String)
    (X : MapResultKey) (q : List String) (h : k' ≠ k) :
    valAt (setKey r k X) (k' :: q) = valAt r (k' :: q) := by
  rw [valAt_cons, valAt_cons, lookupKey_setKey_other r k k' X h]

/-- The monotonicity relation between the partial results of the original
run (`r`) and of the run with the extended skip list (`r'`), relative to
the extended run's current skip scope `s'`: (a) every field of `r'` is a
field of `r` of the same kind, (b) every field of `r` not pruned by `s'`
is a field of `r'`, (c) fields pruned by `s'` are absent from `r'`. -/
def RelP (s' : SkipValue) (r r' : List (String × MapResultKey)) : Prop :=
  (∀ p v', valAt r' p = some v' → ∃ v, valAt r p = some v ∧ isLeafB v = isLeafB v')
  ∧ (∀ p, (valAt r p).isSome = true → prunedB s' p = false → (valAt r' p).isSome = true)
  ∧ (∀ p, prunedB s' p = true → valAt r' p = none)

theorem leafValue_node_iff (root : List (String × MapResultKey)) (name : String)
    (es : List (String × MapResultKey)) :
    leafValue root name = .node es ↔ lookupKey root name = some (.node es) := by
  constructor
  · intro h
    cases hlr : lookupKey root name with
    | none =>
      simp only [leafValue, hlr] at h
      exact absurd h (fun hh => MapResultKey.noConfusion hh)
    | some w =>
      cases w with
      | leaf =>
        simp only [leafValue, hlr] at h
        exact absurd h (fun hh => MapResultKey.noConfusion hh)
      | node es0 =>
        simp only [leafValue, hlr] at h
        injection h with h
        subst h
        rfl
  · intro h
    simp only [leafValue, h]


theorem relA_nil_case (r r' : List (String × MapResultKey)) (v' : MapResultKey)
    (hval : valAt r' [] = some v') :
    ∃ v, valAt r [] = some v ∧ isLeafB v = isLeafB v' := by
  rw [valAt_nil] at hval
  injection hval with hval
  exact ⟨.node r, valAt_nil r, by rw [← hval]; rfl⟩

theorem childEntries_node {root : List (String × MapResultKey)} {name : String}
    {es : List (String × MapResultKey)} (h : lookupKey root name = some (.node es)) :
    childEntries root name = es := by
  simp [childEntries, h]

/-- A field pruned entirely on the extended-run side: updating only the
original-run side under that name preserves the relation. -/
theorem relP_skip_side (s' : SkipValue) (name : String)
    (root root' : List (String × MapResultKey)) (X : MapResultKey)
    (h : RelP s' root root') (hv' : verifySkip name s' = .tru) :
    RelP s' (setKey root name X) root' := by
  obtain ⟨hA, hB, hC⟩ := h
  refine ⟨?_, ?_, hC⟩
  · intro p v' hval
    cases p with
    | nil => exact relA_nil_case _ root' v' hval
    | cons k q =>
      by_cases hk : k = name
      · subst hk
        rw [hC (k :: q) (prunedB_cons_of_tru hv' q)] at hval
        exact absurd hval (by simp)
      · rw [valAt_setKey_other root name k X q hk]
        exact hA (k :: q) v' hval
  · intro p hsome hpr
    cases p with
    | nil => rw [valAt_nil]; rfl
    | cons k q =>
      by_cases hk : k = name
      · subst hk
        rw [prunedB_cons_of_tru hv' q] at hpr
        exact absurd hpr (by simp)
      · rw [valAt_setKey_other root name k X q hk] at hsome
        exact hB (k :: q) hsome hpr

/-- Descending into the children of a common field keeps the relation,
now relative to the child scope of the extended run. -/
theorem relP_child (s' : SkipValue) (name : String)
    (root root' : List (String × MapResultKey))
    (h : RelP s' root root') (hv' : verifySkip name s' ≠ .tru) :
    RelP (verifySkip name s') (childEntries root name) (childEntries root' name) := by
  obtain ⟨hA, hB, hC⟩ := h
  refine ⟨?_, ?_, ?_⟩
  · intro p v' hval
    cases p with
    | nil => exact relA_nil_case _ _ v' hval
    | cons k q =>
      cases hlr' : lookupKey root' name with
      | some w =>
        cases w with
        | node es' =>
          rw [childEntries_node hlr'] at hval
          have hroot' : valAt root' (name :: k :: q) = some v' := by
            rw [valAt_cons_node hlr']; exact hval
          obtain ⟨v, hv, hagree⟩ := hA _ _ hroot'
          obtain ⟨es, hles, hes⟩ := valAt_cons_some_shape (by simp) hv
          rw [childEntries_node hles]
          exact ⟨v, hes, hagree⟩
        | leaf =>
          rw [show childEntries root' name = [] from by simp [childEntries, hlr']] at hval
          rw [valAt_empty_cons] at hval
          exact absurd hval (by simp)
      | none =>
        rw [show childEntries root' name = [] from by simp [childEntries, hlr']] at hval
        rw [valAt_empty_cons] at hval
        exact absurd hval (by simp)
  · intro p hsome hpr
    cases p with
    | nil => rw [valAt_nil]; rfl
    | cons k q =>
      cases hlr : lookupKey root name with
      | some w =>
        cases w with
        | node es =>
          rw [childEntries_node hlr] at hsome
          have hroot : (valAt root (name :: k :: q)).isSome = true := by
            rw [valAt_cons_node hlr]; exact hsome
          have hprr : prunedB s' (name :: k :: q) = false := by
            rw [prunedB_cons_of_ne hv']; exact hpr
          have := hB _ hroot hprr
          obtain ⟨v', hval'⟩ := Option.isSome_iff_exists.mp this
          obtain ⟨es', hles', hes'⟩ := valAt_cons_some_shape (by simp) hval'
          rw [childEntries_node hles', hes']
          rfl
        | leaf =>
          rw [show childEntries root name = [] from by simp [childEntries, hlr],
            valAt_empty_cons] at hsome
          exact absurd hsome (by simp)
      | none =>
        rw [show childEntries root name = [] from by simp [childEntries, hlr],
          valAt_empty_cons] at hsome
        exact absurd hsome (by simp)
  · intro p hpr
    cases p with
    | nil => exact absurd hpr (by simp [prunedB])
    | cons k q =>
      have hprr : prunedB s' (name :: k :: q) = true := by
        rw [prunedB_cons_of_ne hv']; exact hpr
      have hnone := hC _ hprr
      cases hlr' : lookupKey root' name with
      | some w =>
        cases w with
        | node es' =>
          rw [childEntries_node hlr']
          rw [valAt_cons_node hlr'] at hnone
          exact hnone
        | leaf =>
          rw [show childEntries root' name = [] from by simp [childEntries, hlr']]
          exact valAt_empty_cons k q
      | none =>
        rw [show childEntries root' name = [] from by simp [childEntries, hlr']]
        exact valAt_empty_cons k q

/-- Writing the recursion results of a common unpruned field on both sides
preserves the relation, given the child results are related under the
child scope. -/
theorem relP_set_node (s' : SkipValue) (name : String)
    (root root' es2 es2' : List (String × MapResultKey))
    (h : RelP s' root root') (hv' : verifySkip name s' ≠ .tru)
    (hrec : RelP (verifySkip name s') es2 es2') :
    RelP s' (setKey root name (.node es2)) (setKey root' name (.node es2')) := by
  obtain ⟨hA, hB, hC⟩ := h
  obtain ⟨hrA, hrB, hrC⟩ := hrec
  refine ⟨?_, ?_, ?_⟩
  · intro p v' hval
    cases p with
    | nil => exact relA_nil_case _ _ v' hval
    | cons k q =>
      by_cases hk : k = name
      · subst hk
        rw [valAt_setKey_self root' k (.node es2') q] at hval
        obtain ⟨v, hv, hagree⟩ := hrA q v' hval
        refine ⟨v, ?_, hagree⟩
        rw [valAt_setKey_self root k (.node es2) q]
        exact hv
      · rw [valAt_setKey_other root' name k (.node es2') q hk] at hval
        rw [valAt_setKey_other root name k (.node es2) q hk]
        exact hA (k :: q) v' hval
  · intro p hsome hpr
    cases p with
    | nil => rw [valAt_nil]; rfl
    | cons k q =>
      by_cases hk : k = name
      · subst hk
        rw [valAt_setKey_self root k (.node es2) q] at hsome
        rw [valAt_setKey_self root' k (.node es2') q]
        rw [prunedB_cons_of_ne hv'] at hpr
        exact hrB q hsome hpr
      · rw [valAt_setKey_other root name k (.node es2) q hk] at hsome
        rw [valAt_setKey_other root' name k (.node es2') q hk]
        exact hB (k :: q) hsome hpr
  · intro p hpr
    cases p with
    | nil => exact absurd hpr (by simp [prunedB])
    | cons k q =>
      by_cases hk : k = name
      · subst hk
        rw [valAt_setKey_self root' k (.node es2') q]
        rw [prunedB_cons_of_ne hv'] at hpr
        exact hrC q hpr
      · rw [valAt_setKey_other root' name k (.node es2') q hk]
        exact hC (k :: q) hpr


/-- Writing `root[name] = root[name] || false` on both sides of a common
unpruned leaf field preserves the relation. -/
theorem relP_set_leafValue (s' : SkipValue) (name : String)
    (root root' : List (String × MapResultKey))
    (h : RelP s' root root') (hv' : verifySkip name s' ≠ .tru) :
    RelP s' (setKey root name (leafValue root name))
      (setKey root' name (leafValue root' name)) := by
  obtain ⟨hA, hB, hC⟩ := h
  refine ⟨?_, ?_, ?_⟩
  · intro p v' hval
    cases p with
    | nil => exact relA_nil_case _ _ v' hval
    | cons k q =>
      by_cases hk : k = name
      · subst hk
        rw [valAt_setKey_self root' k (leafValue root' k) q] at hval
        cases hlr' : lookupKey root' k with
        | some w =>
          cases w with
          | node es' =>
            have hlv' : leafValue root' k = .node es' := (leafValue_node_iff _ _ _).mpr hlr'
            simp only [hlv'] at hval
            have hroot' : valAt root' (k :: q) = some v' := by
              rw [valAt_cons_node hlr']; exact hval
            obtain ⟨v, hv, hagree⟩ := hA _ _ hroot'
            cases q with
            | nil =>
              rw [valAt_nil] at hval
              rw [valAt_singleton] at hv
              cases v with
              | leaf =>
                injection hval with hval
                rw [← hval] at hagree
                simp [isLeafB] at hagree
              | node es =>
                have hlv : leafValue root k = .node es := (leafValue_node_iff _ _ _).mpr hv
                refine ⟨.node es, ?_, ?_⟩
                · rw [valAt_setKey_self root k (leafValue root k) []]
                  simp only [hlv]
                  exact valAt_nil es
                · rw [← Option.some.inj hval]
                  rfl
            | cons q0 qs =>
              obtain ⟨es, hles, hes⟩ := valAt_cons_some_shape (by simp) hv
              have hlv : leafValue root k = .node es := (leafValue_node_iff _ _ _).mpr hles
              refine ⟨v, ?_, hagree⟩
              rw [valAt_setKey_self root k (leafValue root k) (q0 :: qs)]
              simp only [hlv]
              exact hes
          | leaf =>
            have hlv' : leafValue root' k = .leaf := by simp [leafValue, hlr']
            simp only [hlv'] at hval
            cases q with
            | cons q0 qs =>
              rw [if_neg (by simp)] at hval
              exact absurd hval (by simp)
            | nil =>
              simp only [List.isEmpty_nil, if_true] at hval
              injection hval with hval
              have hroot' : valAt root' [k] = some .leaf := by rw [valAt_singleton, hlr']
              obtain ⟨v, hv, hagree⟩ := hA _ _ hroot'
              rw [valAt_singleton] at hv
              cases v with
              | node es => simp [isLeafB] at hagree
              | leaf =>
                have hlv : leafValue root k = .leaf := by simp [leafValue, hv]
                refine ⟨.leaf, ?_, ?_⟩
                · rw [valAt_setKey_self root k (leafValue root k) []]
                  simp [hlv]
                · rw [← hval]
        | none =>
          have hlv' : leafValue root' k = .leaf := by simp [leafValue, hlr']
          simp only [hlv'] at hval
          cases q with
          | cons q0 qs =>
            rw [if_neg (by simp)] at hval
            exact absurd hval (by simp)
          | nil =>
            simp only [List.isEmpty_nil, if_true] at hval
            injection hval with hval
            cases hlr : lookupKey root k with
            | some w =>
              cases w with
              | node es =>
                exfalso
                have hsome : (valAt root [k]).isSome = true := by
                  rw [valAt_singleton, hlr]; rfl
                have hpr : prunedB s' [k] = false := by
                  rw [prunedB_cons_of_ne hv']; rfl
                have := hB [k] hsome hpr
                rw [valAt_singleton, hlr'] at this
                exact absurd this (by simp)
              | leaf =>
                have hlv : leafValue root k = .leaf := by simp [leafValue, hlr]
                refine ⟨.leaf, ?_, ?_⟩
                · rw [valAt_setKey_self root k (leafValue root k) []]
                  simp [hlv]
                · rw [← hval]
            | none =>
              have hlv : leafValue root k = .leaf := by simp [leafValue, hlr]
              refine ⟨.leaf, ?_, ?_⟩
              · rw [valAt_setKey_self root k (leafValue root k) []]
                simp [hlv]
              · rw [← hval]
      · rw [valAt_setKey_other root' name k (leafValue root' name) q hk] at hval
        rw [valAt_setKey_other root name k (leafValue root name) q hk]
        exact hA (k :: q) v' hval
  · intro p hsome hpr
    cases p with
    | nil => rw [valAt_nil]; rfl
    | cons k q =>
      by_cases hk : k = name
      · subst hk
        cases q with
        | nil =>
          rw [valAt_setKey_self root' k (leafValue root' k) []]
          cases hx : leafValue root' k with
          | leaf => simp [hx]
          | node es' => simp only [hx]; rw [valAt_nil]; rfl
        | cons q0 qs =>
          rw [valAt_setKey_self root k (leafValue root k) (q0 :: qs)] at hsome
          cases hlvx : leafValue root k with
          | leaf =>
            simp only [hlvx] at hsome
            rw [if_neg (by simp)] at hsome
            exact absurd hsome (by simp)
          | node es =>
            simp only [hlvx] at hsome
            have hles : lookupKey root k = some (.node es) := (leafValue_node_iff _ _ _).mp hlvx
            have hroot : (valAt root (k :: q0 :: qs)).isSome = true := by
              rw [valAt_cons_node hles]; exact hsome
            have hs' := hB _ hroot hpr
            obtain ⟨v', hval'⟩ := Option.isSome_iff_exists.mp hs'
            obtain ⟨es', hles', hes'⟩ := valAt_cons_some_shape (by simp) hval'
            have hlv' : leafValue root' k = .node es' := (leafValue_node_iff _ _ _).mpr hles'
            rw [valAt_setKey_self root' k (leafValue root' k) (q0 :: qs)]
            simp only [hlv']
            rw [hes']
            rfl
      · rw [valAt_setKey_other root name k (leafValue root name) q hk] at hsome
        rw [valAt_setKey_other root' name k (leafValue root' name) q hk]
        exact hB (k :: q) hsome hpr
  · intro p hpr
    cases p with
    | nil => exact absurd hpr (by simp [prunedB])
    | cons k q =>
      by_cases hk : k = name
      · subst hk
        have hq : prunedB (verifySkip k s') q = true := by
          rw [prunedB_cons_of_ne hv'] at hpr; exact hpr
        have hqne : q ≠ [] := by
          intro e
          rw [e] at hq
          simp [prunedB] at hq
        cases q with
        | nil => exact absurd rfl hqne
        | cons q0 qs =>
          rw [valAt_setKey_self root' k (leafValue root' k) (q0 :: qs)]
          cases hlvx : leafValue root' k with
          | leaf =>
            simp only [hlvx]
            rw [if_neg (by simp)]
          | node es' =>
            simp only [hlvx]
            have hles' : lookupKey root' k = some (.node es') := (leafValue_node_iff _ _ _).mp hlvx
            have hnone := hC (k :: q0 :: qs) hpr
            rw [valAt_cons_node hles'] at hnone
            exact hnone
      · rw [valAt_setKey_other root' name k (leafValue root' name) q hk]
        exact hC (k :: q) hpr


/-- Monotonicity property of a descent function, used as induction
hypothesis over the traversal fuel. -/
def RecurMono (recur : List SelectionNode → List (String × MapResultKey) →
    TraverseOptions → SkipValue → Except Unit (List (String × MapResultKey))) : Prop :=
  ∀ nodes opts root root' s s' out out',
    NoWild s → NoWild s' → SkipExt s s' → s' ≠ .tru →
    RelP s' root root' →
    recur nodes root opts s = .ok out →
    recur nodes root' opts s' = .ok out' →
    RelP s' out out'

theorem procMono (recur : List SelectionNode → List (String × MapResultKey) →
    TraverseOptions → SkipValue → Except Unit (List (String × MapResultKey)))
    (hr : RecurMono recur) (n : SelectionNode) (opts : TraverseOptions)
    (root root' : List (String × MapResultKey)) (s s' : SkipValue)
    (out out' : List (String × MapResultKey))
    (hnw : NoWild s) (hnw' : NoWild s') (hext : SkipExt s s') (hne' : s' ≠ .tru)
    (h : RelP s' root root')
    (hrun : processNodeGo recur n root opts s = .ok out)
    (hrun' : processNodeGo recur n root' opts s' = .ok out') :
    RelP s' out out' := by
  cases hg : (opts.withVars && !(verifyDirectives n.directives opts.vars)) with
  | true =>
    simp only [processNodeGo, hg, if_true] at hrun hrun'
    injection hrun with hrun
    injection hrun' with hrun'
    rw [← hrun, ← hrun']
    exact h
  | false =>
    cases n with
    | inlineFragment x ss =>
      simp only [processNodeGo, hg, Bool.false_eq_true, if_false] at hrun hrun'
      cases hss : ss.isEmpty with
      | true =>
        rw [if_pos hss] at hrun hrun'
        injection hrun with hrun
        injection hrun' with hrun'
        rw [← hrun, ← hrun']
        exact h
      | false =>
        rw [if_neg (by simp [hss])] at hrun hrun'
        exact hr ss opts root root' s s' out out' hnw hnw' hext hne' h hrun hrun'
    | fragmentSpread name dirs =>
      simp only [processNodeGo, hg, Bool.false_eq_true, if_false] at hrun hrun'
      cases hfr : lookupKey opts.fragments name with
      | some frag =>
        simp only [hfr] at hrun hrun'
        exact hr frag.selections opts root root' s s' out out' hnw hnw' hext hne' h hrun hrun'
      | none =>
        simp only [hfr] at hrun hrun'
        cases hv' : verifySkip name s' with
        | tru =>
          simp only [hv'] at hrun'
          injection hrun' with hrun'
          rw [← hrun']
          cases hv : verifySkip name s with
          | tru =>
            simp only [hv] at hrun
            injection hrun with hrun
            rw [← hrun]
            exact h
          | fls =>
            simp only [hv] at hrun
            injection hrun with hrun
            rw [← hrun]
            exact relP_skip_side s' name root root' _ h hv'
          | tree m =>
            simp only [hv] at hrun
            injection hrun with hrun
            rw [← hrun]
            exact relP_skip_side s' name root root' _ h hv'
        | fls =>
          have hvt' : verifySkip name s' ≠ .tru := by rw [hv']; exact fun e => SkipValue.noConfusion e
          have hvt : verifySkip name s ≠ .tru := fun e =>
            absurd (verifySkip_tru_mono name s s' hnw hext hne' e) (hv' ▸ hvt')
          simp only [hv'] at hrun'
          injection hrun' with hrun'
          rw [← hrun']
          cases hv : verifySkip name s with
          | tru => exact absurd hv hvt
          | fls =>
            simp only [hv] at hrun
            injection hrun with hrun
            rw [← hrun]
            exact relP_set_leafValue s' name root root' h (hv' ▸ hvt')
          | tree m =>
            simp only [hv] at hrun
            injection hrun with hrun
            rw [← hrun]
            exact relP_set_leafValue s' name root root' h (hv' ▸ hvt')
        | tree m' =>
          have hvt' : verifySkip name s' ≠ .tru := by rw [hv']; exact fun e => SkipValue.noConfusion e
          have hvt : verifySkip name s ≠ .tru := fun e =>
            absurd (verifySkip_tru_mono name s s' hnw hext hne' e) (hv' ▸ hvt')
          simp only [hv'] at hrun'
          injection hrun' with hrun'
          rw [← hrun']
          cases hv : verifySkip name s with
          | tru => exact absurd hv hvt
          | fls =>
            simp only [hv] at hrun
            injection hrun with hrun
            rw [← hrun]
            exact relP_set_leafValue s' name root root' h (hv' ▸ hvt')
          | tree m =>
            simp only [hv] at hrun
            injection hrun with hrun
            rw [← hrun]
            exact relP_set_leafValue s' name root root' h (hv' ▸ hvt')
    | field name args oss =>
      simp only [processNodeGo, hg, Bool.false_eq_true, if_false] at hrun hrun'
      cases hfr : lookupKey opts.fragments name with
      | some frag =>
        simp only [hfr] at hrun hrun'
        exact hr frag.selections opts root root' s s' out out' hnw hnw' hext hne' h hrun hrun'
      | none =>
        simp only [hfr] at hrun hrun'
        cases hv' : verifySkip name s' with
        | tru =>
          simp only [hv'] at hrun'
          injection hrun' with hrun'
          rw [← hrun']
          cases hv : verifySkip name s with
          | tru =>
            simp only [hv] at hrun
            injection hrun with hrun
            rw [← hrun]
            exact h
          | fls =>
            simp only [hv] at hrun
            cases oss with
            | none =>
              injection hrun with hrun
              rw [← hrun]
              exact relP_skip_side s' name root root' _ h hv'
            | some xs =>
              cases hxs : xs.isEmpty with
              | true =>
                simp only [hxs, eq_self_iff_true, if_true] at hrun
                injection hrun with hrun
                rw [← hrun]
                exact relP_skip_side s' name root root' _ h hv'
              | false =>
                simp only [hxs, Bool.false_eq_true, if_false] at hrun
                cases hrec : recur xs (childEntries root name) opts .fls with
                | error e => rw [hrec] at hrun; exact absurd hrun (by simp)
                | ok es2 =>
                  rw [hrec] at hrun
                  injection hrun with hrun
                  rw [← hrun]
                  exact relP_skip_side s' name root root' _ h hv'
          | tree m =>
            simp only [hv] at hrun
            cases oss with
            | none =>
              injection hrun with hrun
              rw [← hrun]
              exact relP_skip_side s' name root root' _ h hv'
            | some xs =>
              cases hxs : xs.isEmpty with
              | true =>
                simp only [hxs, eq_self_iff_true, if_true] at hrun
                injection hrun with hrun
                rw [← hrun]
                exact relP_skip_side s' name root root' _ h hv'
              | false =>
                simp only [hxs, Bool.false_eq_true, if_false] at hrun
                cases hrec : recur xs (childEntries root name) opts (.tree m) with
                | error e => rw [hrec] at hrun; exact absurd hrun (by simp)
                | ok es2 =>
                  rw [hrec] at hrun
                  injection hrun with hrun
                  rw [← hrun]
                  exact relP_skip_side s' name root root' _ h hv'
        | fls =>
          have hvt' : verifySkip name s' ≠ .tru := by rw [hv']; exact fun e => SkipValue.noConfusion e
          have hvt : verifySkip name s ≠ .tru := fun e =>
            absurd (verifySkip_tru_mono name s s' hnw hext hne' e) (hv' ▸ hvt')
          have hrel := relP_child s' name root root' h (hv' ▸ hvt')
          have hsc := verifySkip_scope_mono name s s' hnw hext hne' (hv' ▸ hvt')
          have hnws := noWild_verifySkip name s hnw
          have hnws' := noWild_verifySkip name s' hnw'
          simp only [hv'] at hrun'
          cases hv : verifySkip name s with
          | tru => exact absurd hv hvt
          | fls =>
            simp only [hv] at hrun
            cases oss with
            | none =>
              injection hrun with hrun
              injection hrun' with hrun'
              rw [← hrun, ← hrun']
              exact relP_set_leafValue s' name root root' h (hv' ▸ hvt')
            | some xs =>
              cases hxs : xs.isEmpty with
              | true =>
                simp only [hxs, eq_self_iff_true, if_true] at hrun hrun'
                injection hrun with hrun
                injection hrun' with hrun'
                rw [← hrun, ← hrun']
                exact relP_set_leafValue s' name root root' h (hv' ▸ hvt')
              | false =>
                simp only [hxs, Bool.false_eq_true, if_false] at hrun hrun'
                cases hrec : recur xs (childEntries root name) opts .fls with
                | error e => rw [hrec] at hrun; exact absurd hrun (by simp)
                | ok es2 =>
                  rw [hrec] at hrun
                  cases hrec' : recur xs (childEntries root' name) opts .fls with
                  | error e => rw [hrec'] at hrun'; exact absurd hrun' (by simp)
                  | ok es2' =>
                    rw [hrec'] at hrun'
                    injection hrun with hrun
                    injection hrun' with hrun'
                    rw [← hrun, ← hrun']
                    have hrp := hr xs opts (childEntries root name) (childEntries root' name)
                      (verifySkip name s) (verifySkip name s') es2 es2'
                      hnws hnws' hsc (hv' ▸ hvt') hrel (by rw [hv]; exact hrec)
                      (by rw [hv']; exact hrec')
                    have := relP_set_node s' name root root' es2 es2' h (hv' ▸ hvt')
                      (by rw [hv'] at hrp ⊢; exact hrp)
                    exact this
          | tree m =>
            simp only [hv] at hrun
            cases oss with
            | none =>
              injection hrun with hrun
              injection hrun' with hrun'
              rw [← hrun, ← hrun']
              exact relP_set_leafValue s' name root root' h (hv' ▸ hvt')
            | some xs =>
              cases hxs : xs.isEmpty with
              | true =>
                simp only [hxs, eq_self_iff_true, if_true] at hrun hrun'
                injection hrun with hrun
                injection hrun' with hrun'
                rw [← hrun, ← hrun']
                exact relP_set_leafValue s' name root root' h (hv' ▸ hvt')
              | false =>
                simp only [hxs, Bool.false_eq_true, if_false] at hrun hrun'
                cases hrec : recur xs (childEntries root name) opts (.tree m) with
                | error e => rw [hrec] at hrun; exact absurd hrun (by simp)
                | ok es2 =>
                  rw [hrec] at hrun
                  cases hrec' : recur xs (childEntries root' name) opts .fls with
                  | error e => rw [hrec'] at hrun'; exact absurd hrun' (by simp)
                  | ok es2' =>
                    rw [hrec'] at hrun'
                    injection hrun with hrun
                    injection hrun' with hrun'
                    rw [← hrun, ← hrun']
                    have hrp := hr xs opts (childEntries root name) (childEntries root' name)
                      (verifySkip name s) (verifySkip name s') es2 es2'
                      hnws hnws' hsc (hv' ▸ hvt') hrel (by rw [hv]; exact hrec)
                      (by rw [hv']; exact hrec')
                    have := relP_set_node s' name root root' es2 es2' h (hv' ▸ hvt')
                      (by rw [hv'] at hrp ⊢; exact hrp)
                    exact this
        | tree m' =>
          have hvt' : verifySkip name s' ≠ .tru := by rw [hv']; exact fun e => SkipValue.noConfusion e
          have hvt : verifySkip name s ≠ .tru := fun e =>
            absurd (verifySkip_tru_mono name s s' hnw hext hne' e) (hv' ▸ hvt')
          have hrel := relP_child s' name root root' h (hv' ▸ hvt')
          have hsc := verifySkip_scope_mono name s s' hnw hext hne' (hv' ▸ hvt')
          have hnws := noWild_verifySkip name s hnw
          have hnws' := noWild_verifySkip name s' hnw'
          simp only [hv'] at hrun'
          cases hv : verifySkip name s with
          | tru => exact absurd hv hvt
          | fls =>
            simp only [hv] at hrun
            cases oss with
            | none =>
              injection hrun with hrun
              injection hrun' with hrun'
              rw [← hrun, ← hrun']
              exact relP_set_leafValue s' name root root' h (hv' ▸ hvt')
            | some xs =>
              cases hxs : xs.isEmpty with
              | true =>
                simp only [hxs, eq_self_iff_true, if_true] at hrun hrun'
                injection hrun with hrun
                injection hrun' with hrun'
                rw [← hrun, ← hrun']
                exact relP_set_leafValue s' name root root' h (hv' ▸ hvt')
              | false =>
                simp only [hxs, Bool.false_eq_true, if_false] at hrun hrun'
                cases hrec : recur xs (childEntries root name) opts .fls with
                | error e => rw [hrec] at hrun; exact absurd hrun (by simp)
                | ok es2 =>
                  rw [hrec] at hrun
                  cases hrec' : recur xs (childEntries root' name) opts (.tree m') with
                  | error e => rw [hrec'] at hrun'; exact absurd hrun' (by simp)
                  | ok es2' =>
                    rw [hrec'] at hrun'
                    injection hrun with hrun
                    injection hrun' with hrun'
                    rw [← hrun, ← hrun']
                    have hrp := hr xs opts (childEntries root name) (childEntries root' name)
                      (verifySkip name s) (verifySkip name s') es2 es2'
                      hnws hnws' hsc (hv' ▸ hvt') hrel (by rw [hv]; exact hrec)
                      (by rw [hv']; exact hrec')
                    have := relP_set_node s' name root root' es2 es2' h (hv' ▸ hvt')
                      (by rw [hv'] at hrp ⊢; exact hrp)
                    exact this
          | tree m =>
            simp only [hv] at hrun
            cases oss with
            | none =>
              injection hrun with hrun
              injection hrun' with hrun'
              rw [← hrun, ← hrun']
              exact relP_set_leafValue s' name root root' h (hv' ▸ hvt')
            | some xs =>
              cases hxs : xs.isEmpty with
              | true =>
                simp only [hxs, eq_self_iff_true, if_true] at hrun hrun'
                injection hrun with hrun
                injection hrun' with hrun'
                rw [← hrun, ← hrun']
                exact relP_set_leafValue s' name root root' h (hv' ▸ hvt')
              | false =>
                simp only [hxs, Bool.false_eq_true, if_false] at hrun hrun'
                cases hrec : recur xs (childEntries root name) opts (.tree m) with
                | error e => rw [hrec] at hrun; exact absurd hrun (by simp)
                | ok es2 =>
                  rw [hrec] at hrun
                  cases hrec' : recur xs (childEntries root' name) opts (.tree m') with
                  | error e => rw [hrec'] at hrun'; exact absurd hrun' (by simp)
                  | ok es2' =>
                    rw [hrec'] at hrun'
                    injection hrun with hrun
                    injection hrun' with hrun'
                    rw [← hrun, ← hrun']
                    have hrp := hr xs opts (childEntries root name) (childEntries root' name)
                      (verifySkip name s) (verifySkip name s') es2 es2'
                      hnws hnws' hsc (hv' ▸ hvt') hrel (by rw [hv]; exact hrec)
                      (by rw [hv']; exact hrec')
                    have := relP_set_node s' name root root' es2 es2' h (hv' ▸ hvt')
                      (by rw [hv'] at hrp ⊢; exact hrp)
                    exact this


theorem goMono (recur : List SelectionNode → List (String × MapResultKey) →
    TraverseOptions → SkipValue → Except Unit (List (String × MapResultKey)))
    (hr : RecurMono recur) : ∀ (nodes : List SelectionNode) (opts : TraverseOptions)
    (root root' : List (String × MapResultKey)) (s s' : SkipValue)
    (out out' : List (String × MapResultKey)),
    NoWild s → NoWild s' → SkipExt s s' → s' ≠ .tru → RelP s' root root' →
    traverseGo recur nodes root opts s = .ok out →
    traverseGo recur nodes root' opts s' = .ok out' → RelP s' out out' := by
  intro nodes
  induction nodes with
  | nil =>
    intro opts root root' s s' out out' _ _ _ _ h hrun hrun'
    simp only [traverseGo] at hrun hrun'
    injection hrun with hrun
    injection hrun' with hrun'
    rw [← hrun, ← hrun']
    exact h
  | cons n rest ih =>
    intro opts root root' s s' out out' hnw hnw' hext hne' h hrun hrun'
    simp only [traverseGo] at hrun hrun'
    cases hp : processNodeGo recur n root opts s with
    | error e => rw [hp] at hrun; exact absurd hrun (by simp)
    | ok r1 =>
      rw [hp] at hrun
      cases hp' : processNodeGo recur n root' opts s' with
      | error e => rw [hp'] at hrun'; exact absurd hrun' (by simp)
      | ok r1' =>
        rw [hp'] at hrun'
        exact ih opts r1 r1' s s' out out' hnw hnw' hext hne'
          (procMono recur hr n opts root root' s s' r1 r1' hnw hnw' hext hne' h hp hp')
          hrun hrun'

theorem travMono : ∀ fuel : Nat, RecurMono (traverse fuel) := by
  intro fuel
  induction fuel with
  | zero =>
    intro nodes opts root root' s s' out out' _ _ _ _ _ hrun _
    exact absurd hrun (by simp [traverse])
  | succ fuel ih =>
    intro nodes opts root root' s s' out out' hnw hnw' hext hne' h hrun hrun'
    have e : traverse (fuel + 1) nodes root opts s
        = traverseGo (traverse fuel) nodes root opts s := rfl
    have e' : traverse (fuel + 1) nodes root' opts s'
        = traverseGo (traverse fuel) nodes root' opts s' := rfl
    rw [e] at hrun
    rw [e'] at hrun'
    exact goMono (traverse fuel) ih nodes opts root root' s s' out out'
      hnw hnw' hext hne' h hrun hrun'


/-! ## Claim C2: machinery — carrying the relation through `getBranch` and the views -/

/-- The key-preservation part of the relation: every field of `r'` exists
in `r` with the same kind (leaf versus object). -/
def RelA (r r' : List (String × MapResultKey)) : Prop :=
  ∀ p v', valAt r' p = some v' → ∃ v, valAt r p = some v ∧ isLeafB v = isLeafB v'

theorem relA_empty (r : List (String × MapResultKey)) : RelA r [] := by
  intro p w hw
  cases p with
  | nil => exact relA_nil_case _ _ _ hw
  | cons a b => rw [valAt_empty_cons] at hw; exact absurd hw (by simp)

theorem relA_child {r r' : List (String × MapResultKey)} {seg : String}
    {es es' : List (String × MapResultKey)} (h : RelA r r')
    (hv : lookupKey r seg = some (.node es)) (hlr' : lookupKey r' seg = some (.node es')) :
    RelA es es' := by
  intro p w hw
  have hw2 : valAt r' (seg :: p) = some w := by rw [valAt_cons_node hlr']; exact hw
  obtain ⟨u, hu, hagr⟩ := h (seg :: p) w hw2
  rw [valAt_cons_node hv] at hu
  exact ⟨u, hu, hagr⟩

theorem relA_getBranchGo : ∀ (path : List String) (r r' : List (String × MapResultKey)),
    RelA r r' → RelA (getBranchGo r path) (getBranchGo r' path) := by
  intro path
  induction path with
  | nil => intro r r' h; exact h
  | cons seg rest ih =>
    intro r r' h
    cases hlr' : lookupKey r' seg with
    | some w' =>
      cases w' with
      | node es' =>
        have hval' : valAt r' [seg] = some (.node es') := by rw [valAt_singleton, hlr']
        obtain ⟨v, hv, hagree⟩ := h [seg] _ hval'
        rw [valAt_singleton] at hv
        cases v with
        | leaf => simp [isLeafB] at hagree
        | node es =>
          rw [show getBranchGo r' (seg :: rest) = getBranchGo es' rest from by
            simp [getBranchGo, hlr']]
          rw [show getBranchGo r (seg :: rest) = getBranchGo es rest from by
            simp [getBranchGo, hv]]
          exact ih es es' (relA_child h hv hlr')
      | leaf =>
        rw [show getBranchGo r' (seg :: rest) = [] from by simp [getBranchGo, hlr']]
        exact relA_empty _
    | none =>
      rw [show getBranchGo r' (seg :: rest) = [] from by simp [getBranchGo, hlr']]
      exact relA_empty _

theorem relA_getBranch (t t' : List (String × MapResultKey)) (path : Option String)
    (h : RelA t t') : RelA (getBranch t path) (getBranch t' path) := by
  cases path with
  | none => exact h
  | some p =>
    simp only [getBranch]
    cases hp : (p == "") with
    | true => simp only [eq_self_iff_true, if_true]; exact h
    | false =>
      simp only [Bool.false_eq_true, if_false]
      exact relA_getBranchGo (jsSplit p '.') t t' h

theorem relA_valAt_isSome {t t' : List (String × MapResultKey)} (h : RelA t t')
    (q : List String) (hq : (valAt t' q).isSome = true) : (valAt t q).isSome = true := by
  obtain ⟨v', hv'⟩ := Option.isSome_iff_exists.mp hq
  obtain ⟨v, hv, _⟩ := h q v' hv'
  rw [hv]
  rfl

theorem relA_lookup_isSome {t t' : List (String × MapResultKey)} (h : RelA t t')
    (k : String) (hk : (lookupKey t' k).isSome = true) : (lookupKey t k).isSome = true := by
  obtain ⟨v', hv'⟩ := Option.isSome_iff_exists.mp hk
  have hval : valAt t' [k] = some v' := by rw [valAt_singleton]; exact hv'
  obtain ⟨v, hv, _⟩ := h [k] v' hval
  rw [valAt_singleton] at hv
  rw [hv]
  rfl


/-! ## Claim C2: machinery — key uniqueness of traversal outputs -/

theorem sizeOf_snd_lt_node {kv : String × MapResultKey}
    {es : List (String × MapResultKey)} (h : kv ∈ es) :
    sizeOf kv.2 < sizeOf (MapResultKey.node es) := by
  have h2 := List.sizeOf_lt_of_mem h
  obtain ⟨a, b⟩ := kv
  simp only [Prod.mk.sizeOf_spec] at h2
  simp only [MapResultKey.node.sizeOf_spec]
  show sizeOf b < 1 + sizeOf es
  omega

/-- Key-uniqueness of a field tree at every level. -/
def UniqT : MapResultKey → Prop
  | .leaf => True
  | .node es => (es.map Prod.fst).Nodup ∧ ∀ kv ∈ es, UniqT kv.2
termination_by v => sizeOf v
decreasing_by
  rename_i h
  exact sizeOf_snd_lt_node h

theorem uniqT_entry {es : List (String × MapResultKey)} (h : UniqT (.node es))
    {kv : String × MapResultKey} (hm : kv ∈ es) : UniqT kv.2 := by
  simp only [UniqT] at h
  exact h.2 kv hm

theorem uniqT_setKey {es : List (String × MapResultKey)} {k : String}
    {v : MapResultKey} (h : UniqT (.node es)) (hv : UniqT v) :
    UniqT (.node (setKey es k v)) := by
  simp only [UniqT] at h ⊢
  refine ⟨setKey_keys_nodup es k v h.1, fun kv' hm => ?_⟩
  rcases setKey_mem es k v kv' hm with hm' | e
  · exact h.2 kv' hm'
  · rw [e]; exact hv

theorem uniqT_leafValue (root : List (String × MapResultKey)) (name : String)
    (h : UniqT (.node root)) : UniqT (leafValue root name) := by
  cases hlr : lookupKey root name with
  | none => simp [leafValue, hlr, UniqT]
  | some w =>
    cases w with
    | leaf => simp [leafValue, hlr, UniqT]
    | node es =>
      rw [(leafValue_node_iff root name es).mpr hlr]
      exact uniqT_entry h (mem_of_lookupKey root name _ hlr)

theorem uniqT_childEntries (root : List (String × MapResultKey)) (name : String)
    (h : UniqT (.node root)) : UniqT (.node (childEntries root name)) := by
  cases hlr : lookupKey root name with
  | none => simp [childEntries, hlr, UniqT]
  | some w =>
    cases w with
    | leaf => simp [childEntries, hlr, UniqT]
    | node es =>
      rw [childEntries_node hlr]
      exact uniqT_entry h (mem_of_lookupKey root name _ hlr)

/-- Key-uniqueness preservation property of a descent function. -/
def RecurUniq (recur : List SelectionNode → List (String × MapResultKey) →
    TraverseOptions → SkipValue → Except Unit (List (String × MapResultKey))) : Prop :=
  ∀ nodes opts root s out, UniqT (.node root) →
    recur nodes root opts s = .ok out → UniqT (.node out)

theorem procUniq (recur : List SelectionNode → List (String × MapResultKey) →
    TraverseOptions → SkipValue → Except Unit (List (String × MapResultKey)))
    (hr : RecurUniq recur) (n : SelectionNode) (opts : TraverseOptions)
    (root : List (String × MapResultKey)) (s : SkipValue)
    (out : List (String × MapResultKey)) (hu : UniqT (.node root))
    (hrun : processNodeGo recur n root opts s = .ok out) : UniqT (.node out) := by
  cases hg : (opts.withVars && !(verifyDirectives n.directives opts.vars)) with
  | true =>
    simp only [processNodeGo, hg, if_true] at hrun
    injection hrun with hrun
    rw [← hrun]
    exact hu
  | false =>
    cases n with
    | inlineFragment x ss =>
      simp only [processNodeGo, hg, Bool.false_eq_true, if_false] at hrun
      cases hss : ss.isEmpty with
      | true =>
        rw [if_pos hss] at hrun
        injection hrun with hrun
        rw [← hrun]
        exact hu
      | false =>
        rw [if_neg (by simp [hss])] at hrun
        exact hr ss opts root s out hu hrun
    | fragmentSpread name dirs =>
      simp only [processNodeGo, hg, Bool.false_eq_true, if_false] at hrun
      cases hfr : lookupKey opts.fragments name with
      | some frag =>
        simp only [hfr] at hrun
        exact hr frag.selections opts root s out hu hrun
      | none =>
        simp only [hfr] at hrun
        cases hv : verifySkip name s with
        | tru =>
          simp only [hv] at hrun
          injection hrun with hrun
          rw [← hrun]
          exact hu
        | fls =>
          simp only [hv] at hrun
          injection hrun with hrun
          rw [← hrun]
          exact uniqT_setKey hu (uniqT_leafValue root name hu)
        | tree m =>
          simp only [hv] at hrun
          injection hrun with hrun
          rw [← hrun]
          exact uniqT_setKey hu (uniqT_leafValue root name hu)
    | field name args oss =>
      simp only [processNodeGo, hg, Bool.false_eq_true, if_false] at hrun
      cases hfr : lookupKey opts.fragments name with
      | some frag =>
        simp only [hfr] at hrun
        exact hr frag.selections opts root s out hu hrun
      | none =>
        simp only [hfr] at hrun
        cases hv : verifySkip name s with
        | tru =>
          simp only [hv] at hrun
          injection hrun with hrun
          rw [← hrun]
          exact hu
        | fls =>
          simp only [hv] at hrun
          cases oss with
          | none =>
            injection hrun with hrun
            rw [← hrun]
            exact uniqT_setKey hu (uniqT_leafValue root name hu)
          | some xs =>
            cases hxs : xs.isEmpty with
            | true =>
              simp only [hxs, eq_self_iff_true, if_true] at hrun
              injection hrun with hrun
              rw [← hrun]
              exact uniqT_setKey hu (uniqT_leafValue root name hu)
            | false =>
              simp only [hxs, Bool.false_eq_true, if_false] at hrun
              cases hrec : recur xs (childEntries root name) opts .fls with
              | error e => rw [hrec] at hrun; exact absurd hrun (by simp)
              | ok es2 =>
                rw [hrec] at hrun
                injection hrun with hrun
                rw [← hrun]
                exact uniqT_setKey hu
                  (hr xs opts (childEntries root name) .fls es2 (uniqT_childEntries root name hu) hrec)
        | tree m =>
          simp only [hv] at hrun
          cases oss with
          | none =>
            injection hrun with hrun
            rw [← hrun]
            exact uniqT_setKey hu (uniqT_leafValue root name hu)
          | some xs =>
            cases hxs : xs.isEmpty with
            | true =>
              simp only [hxs, eq_self_iff_true, if_true] at hrun
              injection hrun with hrun
              rw [← hrun]
              exact uniqT_setKey hu (uniqT_leafValue root name hu)
            | false =>
              simp only [hxs, Bool.false_eq_true, if_false] at hrun
              cases hrec : recur xs (childEntries root name) opts (.tree m) with
              | error e => rw [hrec] at hrun; exact absurd hrun (by simp)
              | ok es2 =>
                rw [hrec] at hrun
                injection hrun with hrun
                rw [← hrun]
                exact uniqT_setKey hu
                  (hr xs opts (childEntries root name) (.tree m) es2 (uniqT_childEntries root name hu) hrec)

theorem goUniq (recur : List SelectionNode → List (String × MapResultKey) →
    TraverseOptions → SkipValue → Except Unit (List (String × MapResultKey)))
    (hr : RecurUniq recur) : ∀ (nodes : List SelectionNode) (opts : TraverseOptions)
    (root : List (String × MapResultKey)) (s : SkipValue)
    (out : List (String × MapResultKey)), UniqT (.node root) →
    traverseGo recur nodes root opts s = .ok out → UniqT (.node out) := by
  intro nodes
  induction nodes with
  | nil =>
    intro opts root s out hu hrun
    simp only [traverseGo] at hrun
    injection hrun with hrun
    rw [← hrun]
    exact hu
  | cons n rest ih =>
    intro opts root s out hu hrun
    simp only [traverseGo] at hrun
    cases hp : processNodeGo recur n root opts s with
    | error e => rw [hp] at hrun; exact absurd hrun (by simp)
    | ok r1 =>
      rw [hp] at hrun
      exact ih opts r1 s out (procUniq recur hr n opts root s r1 hu hp) hrun

theorem travUniq : ∀ fuel : Nat, RecurUniq (traverse fuel) := by
  intro fuel
  induction fuel with
  | zero =>
    intro nodes opts root s out _ hrun
    exact absurd hrun (by simp [traverse])
  | succ fuel ih =>
    intro nodes opts root s out hu hrun
    have e : traverse (fuel + 1) nodes root opts s
        = traverseGo (traverse fuel) nodes root opts s := rfl
    rw [e] at hrun
    exact goUniq (traverse fuel) ih nodes opts root s out hu hrun

theorem uniqT_getBranchGo : ∀ (path : List String) (r : List (String × MapResultKey)),
    UniqT (.node r) → UniqT (.node (getBranchGo r path)) := by
  intro path
  induction path with
  | nil => intro r h; exact h
  | cons seg rest ih =>
    intro r h
    cases hlr : lookupKey r seg with
    | some w =>
      cases w with
      | node es =>
        rw [show getBranchGo r (seg :: rest) = getBranchGo es rest from by
          simp [getBranchGo, hlr]]
        exact ih es (uniqT_entry h (mem_of_lookupKey r seg _ hlr))
      | leaf =>
        rw [show getBranchGo r (seg :: rest) = [] from by simp [getBranchGo, hlr]]
        simp [UniqT]
    | none =>
      rw [show getBranchGo r (seg :: rest) = [] from by simp [getBranchGo, hlr]]
      simp [UniqT]

theorem uniqT_getBranch (t : List (String × MapResultKey)) (path : Option String)
    (h : UniqT (.node t)) : UniqT (.node (getBranch t path)) := by
  cases path with
  | none => exact h
  | some p =>
    simp only [getBranch]
    cases hp : (p == "") with
    | true => simp only [eq_self_iff_true, if_true]; exact h
    | false =>
      simp only [Bool.false_eq_true, if_false]
      exact uniqT_getBranchGo (jsSplit p '.') t h


/-! ## Claim C2: machinery — characterizing the keys of `fieldsProjection` -/

theorem exists_mem_cons_prop {α : Type} (x : α) (l : List α) (p : α → Prop) :
    (∃ y ∈ x :: l, p y) ↔ p x ∨ ∃ y ∈ l, p y := by
  constructor
  · rintro ⟨y, hy, hp⟩
    rcases List.mem_cons.mp hy with e | hm
    · rw [e] at hp; exact Or.inl hp
    · exact Or.inr ⟨y, hm, hp⟩
  · rintro (hp | ⟨y, hm, hp⟩)
    · exact ⟨x, List.mem_cons_self _ _, hp⟩
    · exact ⟨y, List.mem_cons_of_mem _ hm, hp⟩

theorem lookupKey_setKey_isSome {α : Type} (m : List (String × α)) (a k : String)
    (x : α) : (lookupKey (setKey m a x) k).isSome = true ↔
      k = a ∨ (lookupKey m k).isSome = true := by
  by_cases hk : k = a
  · subst hk
    rw [lookupKey_setKey_self]
    simp
  · rw [lookupKey_setKey_other m a k x hk]
    simp [hk]

/-- A key recorded while processing one queue item's entries (not counting
queued sub-items): a leaf entry records its transformed dot path, an
object entry records its untransformed dot path when `keepParentField`. -/
def DirectKey (kp : Bool) (tf : Option (List (String × String))) (parent : String)
    (es : List (String × MapResultKey)) (k : String) : Prop :=
  ∃ kv ∈ es, (kv.2 = .leaf ∧ k = transformField tf (toDotNotation parent kv.1))
    ∨ (kp = true ∧ ∃ sub, kv.2 = .node sub ∧ k = toDotNotation parent kv.1)

theorem directKey_cons (kp : Bool) (tf : Option (List (String × String)))
    (parent : String) (x : String × MapResultKey) (ts : List (String × MapResultKey))
    (k : String) :
    DirectKey kp tf parent (x :: ts) k ↔
      ((x.2 = .leaf ∧ k = transformField tf (toDotNotation parent x.1))
        ∨ (kp = true ∧ ∃ sub, x.2 = .node sub ∧ k = toDotNotation parent x.1))
      ∨ DirectKey kp tf parent ts k := by
  simp only [DirectKey]
  exact exists_mem_cons_prop x ts _

/-- A key the breadth-first projection records within `d` levels below a
queue item with the given dot-path prefix and entries. -/
def SpecKey (kp : Bool) (tf : Option (List (String × String))) :
    Nat → String → List (String × MapResultKey) → String → Prop
  | 0, _, _, _ => False
  | d + 1, parent, es, k =>
    ∃ kv ∈ es,
      (kv.2 = .leaf ∧ k = transformField tf (toDotNotation parent kv.1))
      ∨ ∃ sub, kv.2 = .node sub ∧
          ((kp = true ∧ k = toDotNotation parent kv.1)
            ∨ SpecKey kp tf d (toDotNotation parent kv.1) sub k)

theorem projEntries_node_eq (kp : Bool) (tf : Option (List (String × String)))
    (parent j : String) (es2 : List (String × MapResultKey))
    (ts : List (String × MapResultKey)) (map : List (String × Nat)) :
    projEntries kp tf parent ((j, .node es2) :: ts) map =
      ((projEntries kp tf parent ts
          (if kp then setKey map (toDotNotation parent j) 1 else map)).1,
       (toDotNotation parent j, es2) ::
         (projEntries kp tf parent ts
           (if kp then setKey map (toDotNotation parent j) 1 else map)).2) := by
  simp only [projEntries]

theorem projEntries_node_fst (kp : Bool) (tf : Option (List (String × String)))
    (parent j : String) (es2 : List (String × MapResultKey))
    (ts : List (String × MapResultKey)) (map : List (String × Nat)) :
    (projEntries kp tf parent ((j, .node es2) :: ts) map).1 =
      (projEntries kp tf parent ts
        (if kp then setKey map (toDotNotation parent j) 1 else map)).1 := by
  rw [projEntries_node_eq]

theorem projEntries_node_snd (kp : Bool) (tf : Option (List (String × String)))
    (parent j : String) (es2 : List (String × MapResultKey))
    (ts : List (String × MapResultKey)) (map : List (String × Nat)) :
    (projEntries kp tf parent ((j, .node es2) :: ts) map).2 =
      (toDotNotation parent j, es2) ::
        (projEntries kp tf parent ts
          (if kp then setKey map (toDotNotation parent j) 1 else map)).2 := by
  rw [projEntries_node_eq]

theorem projEntries_leaf_eq (kp : Bool) (tf : Option (List (String × String)))
    (parent j : String) (ts : List (String × MapResultKey)) (map : List (String × Nat)) :
    projEntries kp tf parent ((j, .leaf) :: ts) map =
      projEntries kp tf parent ts
        (setKey map (transformField tf (toDotNotation parent j)) 1) := rfl

theorem projEntries_keys (kp : Bool) (tf : Option (List (String × String))) :
    ∀ (es : List (String × MapResultKey)) (parent : String)
    (map : List (String × Nat)) (k : String),
    (lookupKey (projEntries kp tf parent es map).1 k).isSome = true ↔
      (lookupKey map k).isSome = true ∨ DirectKey kp tf parent es k := by
  intro es
  induction es with
  | nil =>
    intro parent map k
    simp [projEntries, DirectKey]
  | cons kv ts ih =>
    intro parent map k
    cases kv with
    | mk j v =>
      cases v with
      | node es2 =>
        rw [projEntries_node_fst, ih parent _ k, directKey_cons]
        cases kp with
        | true =>
          rw [if_pos rfl, lookupKey_setKey_isSome]
          constructor
          · rintro ((e | hm) | hd)
            · exact Or.inr (Or.inl (Or.inr ⟨rfl, es2, rfl, e⟩))
            · exact Or.inl hm
            · exact Or.inr (Or.inr hd)
          · rintro (hm | ((⟨hl, _⟩ | ⟨_, sub, hs, hk⟩) | hd))
            · exact Or.inl (Or.inr hm)
            · exact absurd hl (fun e => MapResultKey.noConfusion e)
            · exact Or.inl (Or.inl hk)
            · exact Or.inr hd
        | false =>
          rw [if_neg (fun e => Bool.noConfusion e)]
          constructor
          · rintro (hm | hd)
            · exact Or.inl hm
            · exact Or.inr (Or.inr hd)
          · rintro (hm | ((⟨hl, _⟩ | ⟨hf, _⟩) | hd))
            · exact Or.inl hm
            · exact absurd hl (fun e => MapResultKey.noConfusion e)
            · exact absurd hf (fun e => Bool.noConfusion e)
            · exact Or.inr hd
      | leaf =>
        rw [projEntries_leaf_eq, ih parent _ k, lookupKey_setKey_isSome, directKey_cons]
        constructor
        · rintro ((e | hm) | hd)
          · exact Or.inr (Or.inl (Or.inl ⟨rfl, e⟩))
          · exact Or.inl hm
          · exact Or.inr (Or.inr hd)
        · rintro (hm | ((⟨_, hk⟩ | ⟨_, sub, hs, _⟩) | hd))
          · exact Or.inl (Or.inr hm)
          · exact Or.inl (Or.inl hk)
          · exact absurd hs (fun e => MapResultKey.noConfusion e)
          · exact Or.inr hd

theorem projEntries_pushes (kp : Bool) (tf : Option (List (String × String))) :
    ∀ (es : List (String × MapResultKey)) (parent : String)
    (map : List (String × Nat)) (it : String × List (String × MapResultKey)),
    it ∈ (projEntries kp tf parent es map).2 ↔
      ∃ kv ∈ es, ∃ sub, kv.2 = .node sub ∧ it = (toDotNotation parent kv.1, sub) := by
  intro es
  induction es with
  | nil =>
    intro parent map it
    simp [projEntries]
  | cons kv ts ih =>
    intro parent map it
    cases kv with
    | mk j v =>
      cases v with
      | node es2 =>
        rw [projEntries_node_snd]
        rw [show (∃ kv ∈ (j, MapResultKey.node es2) :: ts, ∃ sub,
            kv.2 = MapResultKey.node sub ∧ it = (toDotNotation parent kv.1, sub)) ↔
            (∃ sub, MapResultKey.node es2 = MapResultKey.node sub
              ∧ it = (toDotNotation parent j, sub))
            ∨ ∃ kv ∈ ts, ∃ sub, kv.2 = MapResultKey.node sub
              ∧ it = (toDotNotation parent kv.1, sub) from exists_mem_cons_prop _ _ _]
        constructor
        · intro hm
          rcases List.mem_cons.mp hm with e | hm'
          · exact Or.inl ⟨es2, rfl, e⟩
          · exact Or.inr ((ih parent _ it).mp hm')
        · rintro (⟨sub, hs, he⟩ | hrest)
          · injection hs with hs
            rw [he, hs]
            exact List.mem_cons_self _ _
          · exact List.mem_cons_of_mem _ ((ih parent _ it).mpr hrest)
      | leaf =>
        rw [projEntries_leaf_eq, ih parent _ it]
        rw [show (∃ kv ∈ (j, MapResultKey.leaf) :: ts, ∃ sub,
            kv.2 = MapResultKey.node sub ∧ it = (toDotNotation parent kv.1, sub)) ↔
            (∃ sub, MapResultKey.leaf = MapResultKey.node sub
              ∧ it = (toDotNotation parent j, sub))
            ∨ ∃ kv ∈ ts, ∃ sub, kv.2 = MapResultKey.node sub
              ∧ it = (toDotNotation parent kv.1, sub) from exists_mem_cons_prop _ _ _]
        constructor
        · intro hd
          exact Or.inr hd
        · rintro (⟨sub, hs, _⟩ | hrest)
          · exact absurd hs (fun e => MapResultKey.noConfusion e)
          · exact hrest


theorem projItems_cons_eq (kp : Bool) (tf : Option (List (String × String)))
    (parent : String) (es : List (String × MapResultKey))
    (rest : List (String × List (String × MapResultKey))) (map : List (String × Nat)) :
    projItems kp tf ((parent, es) :: rest) map =
      ((projItems kp tf rest (projEntries kp tf parent es map).1).1,
       (projEntries kp tf parent es map).2 ++
         (projItems kp tf rest (projEntries kp tf parent es map).1).2) := by
  simp only [projItems]

theorem projItems_keys (kp : Bool) (tf : Option (List (String × String))) :
    ∀ (items : List (String × List (String × MapResultKey)))
    (map : List (String × Nat)) (k : String),
    (lookupKey (projItems kp tf items map).1 k).isSome = true ↔
      (lookupKey map k).isSome = true ∨ ∃ it ∈ items, DirectKey kp tf it.1 it.2 k := by
  intro items
  induction items with
  | nil =>
    intro map k
    simp [projItems]
  | cons it0 rest ih =>
    intro map k
    cases it0 with
    | mk parent es =>
      rw [show (projItems kp tf ((parent, es) :: rest) map).1 =
        (projItems kp tf rest (projEntries kp tf parent es map).1).1 from by
          rw [projItems_cons_eq]]
      rw [ih _ k, projEntries_keys kp tf es parent map k, exists_mem_cons_prop]
      constructor
      · rintro ((hm | hd) | hr)
        · exact Or.inl hm
        · exact Or.inr (Or.inl hd)
        · exact Or.inr (Or.inr hr)
      · rintro (hm | (hd | hr))
        · exact Or.inl (Or.inl hm)
        · exact Or.inl (Or.inr hd)
        · exact Or.inr hr

theorem projItems_pushes (kp : Bool) (tf : Option (List (String × String))) :
    ∀ (items : List (String × List (String × MapResultKey)))
    (map : List (String × Nat)) (it : String × List (String × MapResultKey)),
    it ∈ (projItems kp tf items map).2 ↔
      ∃ i0 ∈ items, ∃ kv ∈ i0.2, ∃ sub, kv.2 = .node sub ∧
        it = (toDotNotation i0.1 kv.1, sub) := by
  intro items
  induction items with
  | nil =>
    intro map it
    simp [projItems]
  | cons it0 rest ih =>
    intro map it
    cases it0 with
    | mk parent es =>
      rw [show (projItems kp tf ((parent, es) :: rest) map).2 =
        (projEntries kp tf parent es map).2 ++
          (projItems kp tf rest (projEntries kp tf parent es map).1).2 from by
            rw [projItems_cons_eq]]
      rw [List.mem_append, projEntries_pushes kp tf es parent map it, ih _ it,
        exists_mem_cons_prop]

theorem projLevels_succ_eq (kp : Bool) (tf : Option (List (String × String)))
    (d : Nat) (items : List (String × List (String × MapResultKey)))
    (map : List (String × Nat)) :
    projLevels kp tf (d + 1) items map =
      (match (projItems kp tf items map).2 with
       | [] => (projItems kp tf items map).1
       | _ :: _ => projLevels kp tf d (projItems kp tf items map).2
           (projItems kp tf items map).1) := by
  simp only [projLevels]

theorem projLevels_keys (kp : Bool) (tf : Option (List (String × String))) :
    ∀ (d : Nat) (items : List (String × List (String × MapResultKey)))
    (map : List (String × Nat)) (k : String),
    (lookupKey (projLevels kp tf d items map) k).isSome = true ↔
      (lookupKey map k).isSome = true ∨ ∃ it ∈ items, SpecKey kp tf d it.1 it.2 k := by
  intro d
  induction d with
  | zero =>
    intro items map k
    simp [projLevels, SpecKey]
  | succ d ih =>
    intro items map k
    rw [projLevels_succ_eq]
    cases hnext : (projItems kp tf items map).2 with
    | nil =>
      simp only [hnext]
      rw [projItems_keys]
      have hno : ∀ i0 ∈ items, ∀ kv ∈ i0.2, ∀ sub, kv.2 = .node sub → False := by
        intro i0 hi kv hkv sub hs
        have hmem : (toDotNotation i0.1 kv.1, sub) ∈ (projItems kp tf items map).2 :=
          (projItems_pushes kp tf items map _).mpr ⟨i0, hi, kv, hkv, sub, hs, rfl⟩
        rw [hnext] at hmem
        simp at hmem
      constructor
      · rintro (hm | ⟨it, hit, hd⟩)
        · exact Or.inl hm
        · refine Or.inr ⟨it, hit, ?_⟩
          obtain ⟨kv, hkv, hbr⟩ := hd
          rcases hbr with ⟨hl, hk⟩ | ⟨_, sub, hs, _⟩
          · exact ⟨kv, hkv, Or.inl ⟨hl, hk⟩⟩
          · exact absurd hs (fun e => hno it hit kv hkv sub e)
      · rintro (hm | ⟨it, hit, hsk⟩)
        · exact Or.inl hm
        · refine Or.inr ⟨it, hit, ?_⟩
          obtain ⟨kv, hkv, hbr⟩ := hsk
          rcases hbr with ⟨hl, hk⟩ | ⟨sub, hs, _⟩
          · exact ⟨kv, hkv, Or.inl ⟨hl, hk⟩⟩
          · exact absurd hs (fun e => hno it hit kv hkv sub e)
    | cons n0 ns =>
      simp only [hnext]
      rw [ih, projItems_keys]
      constructor
      · rintro ((hm | hd) | ⟨it', hit', hsk⟩)
        · exact Or.inl hm
        · obtain ⟨it, hit, kv, hkv, hbr⟩ := hd
          refine Or.inr ⟨it, hit, kv, hkv, ?_⟩
          rcases hbr with ⟨hl, hk⟩ | ⟨hkp, sub, hs, hk⟩
          · exact Or.inl ⟨hl, hk⟩
          · exact Or.inr ⟨sub, hs, Or.inl ⟨hkp, hk⟩⟩
        · have hmem : it' ∈ (projItems kp tf items map).2 := by
            rw [hnext]; exact hit'
          obtain ⟨i0, hi0, kv, hkv, sub, hs, he⟩ :=
            (projItems_pushes kp tf items map it').mp hmem
          refine Or.inr ⟨i0, hi0, kv, hkv, Or.inr ⟨sub, hs, Or.inr ?_⟩⟩
          rw [he] at hsk
          exact hsk
      · rintro (hm | ⟨it, hit, kv, hkv, hbr⟩)
        · exact Or.inl (Or.inl hm)
        · rcases hbr with ⟨hl, hk⟩ | ⟨sub, hs, hrest⟩
          · exact Or.inl (Or.inr ⟨it, hit, kv, hkv, Or.inl ⟨hl, hk⟩⟩)
          · rcases hrest with ⟨hkp, hk⟩ | hdeep
            · exact Or.inl (Or.inr ⟨it, hit, kv, hkv, Or.inr ⟨hkp, sub, hs, hk⟩⟩)
            · refine Or.inr ⟨(toDotNotation it.1 kv.1, sub), ?_, hdeep⟩
              rw [← hnext]
              exact (projItems_pushes kp tf items map _).mpr ⟨it, hit, kv, hkv, sub, hs, rfl⟩


theorem specKey_mono (kp : Bool) (tf : Option (List (String × String))) :
    ∀ (d : Nat) (parent : String) (t t' : List (String × MapResultKey)),
    RelA t t' → UniqT (.node t') → ∀ k,
    SpecKey kp tf d parent t' k → SpecKey kp tf d parent t k := by
  intro d
  induction d with
  | zero =>
    intro parent t t' _ _ k hs
    exact hs.elim
  | succ d ih =>
    intro parent t t' hA hu k hs
    obtain ⟨kv, hm, hbr⟩ := hs
    have hun : (t'.map Prod.fst).Nodup := by
      simp only [UniqT] at hu
      exact hu.1
    have hlk' : lookupKey t' kv.1 = some kv.2 := by
      have : (kv.1, kv.2) ∈ t' := by simpa using hm
      exact lookupKey_of_mem_nodup t' hun kv.1 kv.2 this
    have hval' : valAt t' [kv.1] = some kv.2 := by rw [valAt_singleton]; exact hlk'
    obtain ⟨v, hv, hagree⟩ := hA [kv.1] kv.2 hval'
    rw [valAt_singleton] at hv
    rcases hbr with ⟨hleaf, hk⟩ | ⟨sub', hnode, hrest⟩
    · have hvleaf : v = .leaf := by
        rw [hleaf] at hagree
        cases v with
        | leaf => rfl
        | node es => simp [isLeafB] at hagree
      refine ⟨(kv.1, .leaf), ?_, Or.inl ⟨rfl, hk⟩⟩
      rw [← hvleaf]
      exact mem_of_lookupKey t kv.1 v hv
    · have hvnode : ∃ sub, v = .node sub := by
        rw [hnode] at hagree
        cases v with
        | leaf => simp [isLeafB] at hagree
        | node sub => exact ⟨sub, rfl⟩
      obtain ⟨sub, hvs⟩ := hvnode
      rw [hvs] at hv
      refine ⟨(kv.1, .node sub), mem_of_lookupKey t kv.1 _ hv, Or.inr ⟨sub, rfl, ?_⟩⟩
      rcases hrest with ⟨hkp, hk⟩ | hdeep
      · exact Or.inl ⟨hkp, hk⟩
      · refine Or.inr (ih (toDotNotation parent kv.1) sub sub' ?_ ?_ k hdeep)
        · intro p w hw
          have hw2 : valAt t' (kv.1 :: p) = some w := by
            rw [valAt_cons_node (by rw [← hnode]; exact hlk')]
            exact hw
          obtain ⟨u, hu2, hagr⟩ := hA (kv.1 :: p) w hw2
          rw [valAt_cons_node hv] at hu2
          exact ⟨u, hu2, hagr⟩
        · have := uniqT_entry hu hm
          rw [hnode] at this
          exact this

theorem projLevels_mono (kp : Bool) (tf : Option (List (String × String)))
    (d : Nat) (t t' : List (String × MapResultKey)) (k : String)
    (hA : RelA t t') (hu : UniqT (.node t'))
    (h : (lookupKey (projLevels kp tf d [("", t')] []) k).isSome = true) :
    (lookupKey (projLevels kp tf d [("", t)] []) k).isSome = true := by
  rw [projLevels_keys] at h
  rcases h with hmap | ⟨it, hit, hsk⟩
  · rw [show lookupKey ([] : List (String × Nat)) k = none from rfl] at hmap
    exact absurd hmap (by simp)
  · have hit2 : it = ("", t') := by simpa using hit
    rw [hit2] at hsk
    rw [projLevels_keys]
    exact Or.inr ⟨("", t), by simp, specKey_mono kp tf d "" t t' hA hu k hsk⟩


/-! ## Claim C2: exclusion monotonicity -/

theorem parseOptions_skip (o : FieldsListOptions) :
    (parseOptions (some o)).skip = o.skip := by
  simp only [parseOptions]
  split <;> rfl

theorem parseOptions_skip_set (o : FieldsListOptions) (sNew : Option (List String)) :
    parseOptions (some { o with skip := sNew }) =
      { parseOptions (some o) with skip := sNew } := by
  cases o with
  | mk path tf wd kpf skip0 =>
    simp only [parseOptions]
    by_cases hc : wd.isNone = true
    · rw [if_pos hc, if_pos hc]
    · rw [if_neg hc, if_neg hc]

theorem optsSet_skip (o1 : FieldsListOptions) (X : Option (List String)) :
    ({ o1 with skip := X } : FieldsListOptions).skip = X := rfl

theorem optsSet_path (o1 : FieldsListOptions) (X : Option (List String)) :
    ({ o1 with skip := X } : FieldsListOptions).path = o1.path := rfl

theorem optsSet_wd (o1 : FieldsListOptions) (X : Option (List String)) :
    ({ o1 with skip := X } : FieldsListOptions).withDirectives = o1.withDirectives := rfl

theorem optsSet_transform (o1 : FieldsListOptions) (X : Option (List String)) :
    ({ o1 with skip := X } : FieldsListOptions).transform = o1.transform := rfl

theorem optsSet_kpf (o1 : FieldsListOptions) (X : Option (List String)) :
    ({ o1 with skip := X } : FieldsListOptions).keepParentField = o1.keepParentField := rfl

/-- Resolver info of `query q { user { secret name } }`. -/
def c2Info : GraphQLResolveInfo :=
  { fieldName := "q"
    fieldNodes := some [.field "q" []
      (some [.field "user" []
        (some [.field "secret" [] none, .field "name" [] none])])]
    fieldASTs := none
    fragments := []
    variableValues := [] }

/-- C2, refuted as stated: with the wildcard pattern list `["*.secret"]`
the field `user.secret` is excluded, but with the LARGER skip list
`["*.secret", "user*.name"]` it reappears (the scan's last matching
wildcard pattern replaces, rather than narrows, the child scope), so
adding a skip pattern can make previously excluded fields visible. -/
theorem claim_C2_counterexample :
    (fieldsMapRun 50 (some c2Info) (some { skip := some ["*.secret"] })).1
      = .ok [("user", .node [("name", .leaf)])]
    ∧ (fieldsMapRun 50 (some c2Info)
        (some { skip := some ["*.secret", "user*.name"] })).1
      = .ok [("user", .node [("secret", .leaf)])]
    ∧ hasPath [("user", .node [("secret", .leaf)])] ["user", "secret"] = true
    ∧ hasPath [("user", .node [("name", .leaf)])] ["user", "secret"] = false :=
  ⟨rfl, rfl, rfl, rfl⟩


/-- C2, amended: for a wildcard-free skip list, excluding one more
(wildcard-free) pattern is monotone, provided both runs return: every
field path of the restricted run's map exists in the original run's map,
the restricted field list is a subset of the original one, and every
projection key of the restricted run is a projection key of the original
run. -/
theorem claim_C2_wildcard_free_monotonicity
    (fuel : Nat) (info : Option GraphQLResolveInfo) (o : FieldsListOptions)
    (pat : String) (t t' : List (String × MapResultKey))
    (hw : ∀ q ∈ o.skip.getD [], ∀ seg ∈ jsSplit q '.', strHasChar seg '*' = false)
    (hwp : ∀ seg ∈ jsSplit pat '.', strHasChar seg '*' = false)
    (hm : (fieldsMapRun fuel info (some o)).1 = .ok t)
    (hm' : (fieldsMapRun fuel info
      (some { o with skip := some (o.skip.getD [] ++ [pat]) })).1 = .ok t') :
    (∀ q, (valAt t' q).isSome = true → (valAt t q).isSome = true)
    ∧ (∀ l0 l0', (fieldsListRun fuel info o).1 = .ok l0 →
        (fieldsListRun fuel info { o with skip := some (o.skip.getD [] ++ [pat]) }).1
          = .ok l0' → ∀ x ∈ l0', x ∈ l0)
    ∧ (∀ m m', (fieldsProjectionRun fuel info (some o)).1 = .ok m →
        (fieldsProjectionRun fuel info
          (some { o with skip := some (o.skip.getD [] ++ [pat]) })).1 = .ok m' →
        ∀ km, (lookupKey m' km).isSome = true → (lookupKey m km).isSome = true) := by
  have key : RelA t t' ∧ UniqT (.node t') := by
    cases info with
    | none =>
      simp only [fieldsMapRun] at hm hm'
      injection hm with hm
      injection hm' with hm'
      rw [← hm, ← hm']
      exact ⟨relA_empty [], by simp [UniqT]⟩
    | some i =>
      simp only [fieldsMapRun, fieldsMapCore] at hm hm'
      cases hvf : verifyFieldNode (normalizeInfo i) with
      | none =>
        simp only [hvf] at hm hm'
        injection hm with hm
        injection hm' with hm'
        rw [← hm, ← hm']
        exact ⟨relA_empty [], by simp [UniqT]⟩
      | some fn =>
        simp only [hvf] at hm hm'
        rw [parseOptions_skip_set o (some (o.skip.getD [] ++ [pat]))] at hm'
        rw [optsSet_skip, optsSet_path, optsSet_wd] at hm'
        rw [Option.getD_some] at hm'
        rw [parseOptions_skip o] at hm
        cases hst : skipTree (o.skip.getD []) with
        | error e =>
          simp only [hst] at hm
          exact absurd hm (by simp)
        | ok st =>
          simp only [hst] at hm
          cases hst' : skipTree (o.skip.getD [] ++ [pat]) with
          | error e =>
            simp only [hst'] at hm'
            exact absurd hm' (by simp)
          | ok st' =>
            simp only [hst'] at hm'
            cases htr : traverse fuel fn.getNodes []
                ⟨(normalizeInfo i).fragments, (normalizeInfo i).variableValues,
                  (parseOptions (some o)).withDirectives.getD false⟩ st with
            | error e =>
              simp only [htr] at hm
              exact absurd hm (by simp)
            | ok tr =>
              simp only [htr] at hm
              cases htr' : traverse fuel fn.getNodes []
                  ⟨(normalizeInfo i).fragments, (normalizeInfo i).variableValues,
                    (parseOptions (some o)).withDirectives.getD false⟩ st' with
              | error e =>
                simp only [htr'] at hm'
                exact absurd hm' (by simp)
              | ok tr' =>
                simp only [htr'] at hm'
                injection hm with hm
                injection hm' with hm'
                have hwall : ∀ q ∈ o.skip.getD [] ++ [pat], ∀ seg ∈ jsSplit q '.',
                    strHasChar seg '*' = false := by
                  intro q hq
                  rcases List.mem_append.mp hq with hql | hqr
                  · exact hw q hql
                  · rw [List.mem_singleton.mp hqr]
                    exact hwp
                obtain ⟨hnwst, hust⟩ := skipTree_props _ st hst hw
                obtain ⟨hnwst', _⟩ := skipTree_props _ st' hst' hwall
                have hext := skipTree_ext _ pat st st' hst hst' hw
                obtain ⟨es', hshape'⟩ := skipTree_shape _ st' hst'
                have hne' : st' ≠ .tru := by
                  rw [hshape']
                  exact fun e => SkipValue.noConfusion e
                have hrel0 : RelP st' [] [] := by
                  refine ⟨fun p v' hval => ⟨v', hval, rfl⟩, fun p hs _ => hs,
                    fun p hpr => ?_⟩
                  cases p with
                  | nil => exact absurd hpr (by simp [prunedB])
                  | cons a b => exact valAt_empty_cons a b
                have htrav := travMono fuel fn.getNodes _ [] [] st st' tr tr'
                  hnwst hnwst' hext hne' hrel0 htr htr'
                have hutr' : UniqT (.node tr') := travUniq fuel fn.getNodes _ [] st' tr'
                  (by simp [UniqT]) htr'
                rw [← hm, ← hm']
                exact ⟨relA_getBranch tr tr' _ htrav.1, uniqT_getBranch tr' _ hutr'⟩
  obtain ⟨hA, hu⟩ := key
  refine ⟨fun q => relA_valAt_isSome hA q, ?_, ?_⟩
  · intro l0 l0' hl hl'
    simp only [fieldsListRun] at hl hl'
    rw [hm] at hl
    rw [hm'] at hl'
    simp only [Except.map] at hl hl'
    injection hl with hl
    injection hl' with hl'
    rw [optsSet_transform] at hl'
    intro x hx
    rw [← hl'] at hx
    rw [← hl]
    obtain ⟨key', hkey', hxe⟩ := List.mem_map.mp hx
    refine List.mem_map.mpr ⟨key', ?_, hxe⟩
    exact lookupKey_mem_keys t key'
      (relA_lookup_isSome hA key' (lookupKey_isSome_of_mem_keys t' key' hkey'))
  · intro m m' hmj hmj'
    simp only [fieldsProjectionRun] at hmj hmj'
    rw [hm] at hmj
    rw [hm'] at hmj'
    simp only [Except.map] at hmj hmj'
    injection hmj with hmj
    injection hmj' with hmj'
    intro km hkm
    rw [← hmj'] at hkm
    rw [← hmj]
    exact projLevels_mono _ _ (fuel + 1) t t' km hA hu hkm


/-- Resolver info of `query q { a b }`. -/
def c2wInfo : GraphQLResolveInfo :=
  { fieldName := "q"
    fieldNodes := some [.field "q" [] (some [.field "a" [] none, .field "b" [] none])]
    fieldASTs := none
    fragments := []
    variableValues := [] }

/-- Witness for C2 (amended): on `query q { a b }`, the skip list `["a"]`
yields the map `{b: false}` and the extended list `["a", "b"]` yields
`{}`; the theorem applied at these inputs confirms every path of the
extended run's map is a path of the original run's map. -/
theorem claim_C2_witness :
    (fieldsMapRun 5 (some c2wInfo) (some { skip := some ["a"] })).1
      = .ok [("b", MapResultKey.leaf)]
    ∧ (fieldsMapRun 5 (some c2wInfo) (some { skip := some ["a", "b"] })).1 = .ok []
    ∧ (∀ q, (valAt ([] : List (String × MapResultKey)) q).isSome = true →
        (valAt [("b", MapResultKey.leaf)] q).isSome = true) := by
  refine ⟨rfl, rfl, ?_⟩
  have h := claim_C2_wildcard_free_monotonicity 5 (some c2wInfo)
    { skip := some ["a"] } "b" [("b", .leaf)] []
    (by decide) (by decide) rfl rfl
  exact h.1

end GFL
